import Mathlib

/-!
Verification of the tic-tac-toe decision engine and the scoreboard
persistence layer of this repository.

The game functions are shallowly embedded from `tictactoe/__init__.py`
(the module-level copy `tic-tac-toe.py` is line-for-line identical on the
functions treated here).  Python's in-place list mutation with
simulate/undo is embedded functionally: placing a symbol is `List.set`
and the guaranteed revert is the subject of a dedicated frame theorem on
mutation-threading variants of the functions.  The global transposition
table `_MINIMAX_CACHE` is threaded as an explicit association list.
Recursion over the shrinking set of empty cells is expressed with an
explicit fuel argument; every theorem that needs it carries the
hypothesis that the fuel dominates the number of empty cells, and a
9-cell board never needs more than fuel 9.
-/

namespace TTT

/-- The three possible cell contents: `E` is the Python `" "`, `X` is `"X"`,
`O` is `"O"`. -/
inductive Cell where
  | E : Cell
  | X : Cell
  | O : Cell
deriving DecidableEq, Repr

/-- A board is the Python `List[str]` of cells (row-major, indices 0-8). -/
abbrev Board := List Cell

/-- Character used by `"".join(board)` when serializing a board. -/
def Cell.char : Cell → Char
  | Cell.E => ' '
  | Cell.X => 'X'
  | Cell.O => 'O'

/-- The `"".join(board)`, the cache key serialization in `_minimax`. -/
def serialize (b : Board) : String :=
  String.mk (b.map Cell.char)

/-- The 8 win lines, in the exact order they are listed in `check_winner`
(rows, columns, diagonals). -/
def winning_lines : List (Nat × Nat × Nat) :=
  [(0, 1, 2), (3, 4, 5), (6, 7, 8),
   (0, 3, 6), (1, 4, 7), (2, 5, 8),
   (0, 4, 8), (2, 4, 6)]

/-- Cell lookup: Python `board[i]` on a 9-cell board; out-of-range reads
default to `E` (all theorems are stated on 9-cell boards, where this
never happens). -/
def cellAt (b : Board) (i : Nat) : Cell :=
  b.getD i Cell.E

/-- The `check_winner`: first win line (in the fixed order) whose three cells
are equal and not empty; `none` otherwise. -/
def check_winner (b : Board) : Option Cell :=
  winning_lines.findSome? (fun t =>
    if cellAt b t.1 = cellAt b t.2.1 ∧ cellAt b t.2.1 = cellAt b t.2.2 ∧ cellAt b t.1 ≠ Cell.E
    then some (cellAt b t.1) else none)

/-- The `board_full`: no empty cell remains. -/
def board_full (b : Board) : Bool :=
  b.all (fun c => c ≠ Cell.E)

/-- The ascending list of indices of empty cells, as enumerated by the
Python loops `for idx, cell in enumerate(board): if cell != " ": continue`. -/
def empties (b : Board) : List Nat :=
  (List.range b.length).filter (fun i => cellAt b i = Cell.E)

/-- Number of empty cells; used as the fuel bound for the search
recursions. -/
def countEmpty (b : Board) : Nat :=
  (empties b).length

/-- The empty board. -/
def emptyBoard : Board :=
  List.replicate 9 Cell.E

theorem mem_empties {b : Board} {i : Nat} :
    i ∈ empties b ↔ i < b.length ∧ cellAt b i = Cell.E := by
  simp [empties, List.mem_filter, List.mem_range]

theorem empties_pairwise (b : Board) : (empties b).Pairwise (· < ·) :=
  (List.pairwise_lt_range b.length).filter _

theorem length_set_eq (b : Board) (i : Nat) (c : Cell) :
    (b.set i c).length = b.length := by
  simp

theorem cellAt_set_self {b : Board} {i : Nat} (h : i < b.length) (c : Cell) :
    cellAt (b.set i c) i = c := by
  simp [cellAt, List.getD, List.getElem?_set_self h]

theorem cellAt_set_ne (b : Board) {i j : Nat} (hij : i ≠ j) (c : Cell) :
    cellAt (b.set i c) j = cellAt b j := by
  simp [cellAt, List.getD, List.getElem?_set_ne hij]

theorem set_of_cellAt_eq {b : Board} {i : Nat} (h : cellAt b i = Cell.E) :
    b.set i Cell.E = b := by
  induction b generalizing i with
  | nil => simp
  | cons hd tl ih =>
    cases i with
    | zero =>
      simp only [cellAt, List.getD_cons_zero] at h
      simp [h]
    | succ n =>
      simp only [List.set]
      rw [ih (by simpa [cellAt, List.getD_cons_succ] using h)]

/-- Reverting a simulated move restores the board: if cell `i` was empty,
setting it and setting it back to empty is the identity (also for
out-of-range `i`, where both sets are no-ops). -/
theorem set_set_restore {b : Board} {i : Nat} (h : cellAt b i = Cell.E) (c : Cell) :
    (b.set i c).set i Cell.E = b := by
  rw [List.set_set]
  exact set_of_cellAt_eq h

theorem countEmpty_le_length (b : Board) : countEmpty b ≤ b.length := by
  calc (empties b).length ≤ (List.range b.length).length := List.length_filter_le _ _
    _ = b.length := List.length_range _

theorem empties_nodup (b : Board) : (empties b).Nodup :=
  (empties_pairwise b).imp Nat.ne_of_lt

/-- Placing a non-empty symbol on an empty cell removes exactly that index
from the list of empty cells. -/
theorem empties_set {b : Board} {i : Nat} {c : Cell} (hc : c ≠ Cell.E)
    (hi : i ∈ empties b) : empties (b.set i c) = (empties b).erase i := by
  rw [(empties_nodup b).erase_eq_filter]
  unfold empties
  rw [List.length_set, List.filter_filter]
  apply List.filter_congr
  intro j _
  by_cases hij : j = i
  · subst hij
    have hlen : j < b.length := (mem_empties.mp hi).1
    simp [cellAt_set_self hlen, hc]
  · simp [cellAt_set_ne b (fun h => hij h.symm), hij]

theorem countEmpty_set {b : Board} {i : Nat} {c : Cell} (hc : c ≠ Cell.E)
    (hi : i ∈ empties b) : countEmpty (b.set i c) = countEmpty b - 1 := by
  unfold countEmpty
  rw [empties_set hc hi, List.length_erase_of_mem hi]

theorem countEmpty_pos {b : Board} {i : Nat} (hi : i ∈ empties b) :
    0 < countEmpty b :=
  List.length_pos.mpr (fun h => by simp [h] at hi)

theorem countEmpty_set_lt {b : Board} {i : Nat} {c : Cell} (hc : c ≠ Cell.E)
    (hi : i ∈ empties b) : countEmpty (b.set i c) < countEmpty b := by
  rw [countEmpty_set hc hi]
  exact Nat.sub_lt (countEmpty_pos hi) Nat.one_pos

/-- The `find?` on a strictly ascending list finds the least satisfying
element: everything before it fails the predicate. -/
theorem find?_first {l : List Nat} {p : Nat → Bool} {i : Nat}
    (hp : l.Pairwise (· < ·)) (h : l.find? p = some i) :
    ∀ j ∈ l, j < i → p j = false := by
  induction l with
  | nil => intro j hj; simp at hj
  | cons hd tl ih =>
    intro j hj hji
    rcases List.pairwise_cons.mp hp with ⟨hhd, htl⟩
    by_cases hphd : p hd
    · rw [List.find?_cons_of_pos _ hphd] at h
      cases h
      rcases List.mem_cons.mp hj with rfl | hjtl
      · omega
      · exact absurd (hhd j hjtl) (by omega)
    · rw [List.find?_cons_of_neg _ (by simpa using hphd)] at h
      rcases List.mem_cons.mp hj with rfl | hjtl
      · simpa using hphd
      · exact ih htl h j hjtl hji

/-- The `find_winning_move`: first empty index (ascending 0..8) whose
simulated placement of `symbol` makes `check_winner` report `symbol`. -/
def find_winning_move (b : Board) (symbol : Cell) : Option Nat :=
  (List.range 9).find? (fun idx =>
    decide (cellAt b idx = Cell.E ∧ check_winner (b.set idx symbol) = some symbol))

/-- C7: `find_winning_move` returns `none` iff no single placement of
`symbol` on an empty cell of the 9-cell board makes `check_winner` report
`symbol`; when some placement wins it returns the first qualifying index
in ascending order. -/
theorem find_winning_move_spec (b : Board) (s : Cell) (hL : b.length = 9) :
    (find_winning_move b s = none ↔
      ∀ i, i < b.length → cellAt b i = Cell.E → check_winner (b.set i s) ≠ some s)
    ∧ (∀ i, find_winning_move b s = some i →
        i < b.length ∧ cellAt b i = Cell.E ∧ check_winner (b.set i s) = some s ∧
        ∀ j, j < i → ¬(cellAt b j = Cell.E ∧ check_winner (b.set j s) = some s)) := by
  constructor
  · rw [find_winning_move, List.find?_eq_none]
    constructor
    · intro h i hi he hw
      have hh := h i (List.mem_range.mpr (by omega))
      simp only [decide_eq_true_eq] at hh
      exact hh ⟨he, hw⟩
    · intro h i hi
      simp only [decide_eq_true_eq]
      rintro ⟨he, hw⟩
      exact h i (by rw [hL]; exact List.mem_range.mp hi) he hw
  · intro i hfind
    rw [find_winning_move] at hfind
    have hmem := List.mem_range.mp (List.mem_of_find?_eq_some hfind)
    have hp := List.find?_some hfind
    simp only [decide_eq_true_eq] at hp
    refine ⟨by omega, hp.1, hp.2, ?_⟩
    intro j hji hj
    have hfirst := find?_first (List.pairwise_lt_range 9) hfind j
      (List.mem_range.mpr (by omega)) hji
    rw [decide_eq_false_iff_not] at hfirst
    exact hfirst hj

/-- Witness for C7 at a concrete input: on the board
`["O","O"," ","X","X"," "," "," "," "]`, placing `O` at index 2 wins and
`find_winning_move` returns 2. -/
theorem find_winning_move_spec_witness :
    ([Cell.O, Cell.O, Cell.E, Cell.X, Cell.X, Cell.E, Cell.E, Cell.E, Cell.E] :
      Board).length = 9 ∧
    find_winning_move
      [Cell.O, Cell.O, Cell.E, Cell.X, Cell.X, Cell.E, Cell.E, Cell.E, Cell.E]
      Cell.O = some 2 ∧
    check_winner
      (([Cell.O, Cell.O, Cell.E, Cell.X, Cell.X, Cell.E, Cell.E, Cell.E, Cell.E] :
        Board).set 2 Cell.O) = some Cell.O := by
  refine ⟨by decide, by decide, ?_⟩
  have h := (find_winning_move_spec
    [Cell.O, Cell.O, Cell.E, Cell.X, Cell.X, Cell.E, Cell.E, Cell.E, Cell.E]
    Cell.O (by decide)).2 2 (by decide)
  exact h.2.2.1

/-- Number of win lines that, on the board `b` (already holding the
simulated placement), contain exactly two cells of `symbol` and one empty
cell — the `two_way` counter of `find_fork_move`. -/
def two_way_count (b : Board) (symbol : Cell) : Nat :=
  winning_lines.countP (fun t =>
    decide ([cellAt b t.1, cellAt b t.2.1, cellAt b t.2.2].count symbol = 2 ∧
            [cellAt b t.1, cellAt b t.2.1, cellAt b t.2.2].count Cell.E = 1))

/-- The `best` list of `find_fork_move`: `(two_way, idx)` pairs, in
ascending index order, for empty cells whose simulated placement yields at
least two two-way threats. -/
def fork_candidates (b : Board) (symbol : Cell) : List (Nat × Nat) :=
  (List.range 9).filterMap (fun idx =>
    if cellAt b idx = Cell.E then
      if 2 ≤ two_way_count (b.set idx symbol) symbol then
        some (two_way_count (b.set idx symbol) symbol, idx)
      else none
    else none)

/-- The `sort_key` of `find_fork_move`: `(count, is_corner, is_center,
-idx)` compared lexicographically, as Python compares tuples. -/
def sort_key (item : Nat × Nat) : ℤ ×ₗ ℤ ×ₗ ℤ ×ₗ ℤ :=
  toLex ((item.1 : ℤ),
    toLex ((if item.2 = 0 ∨ item.2 = 2 ∨ item.2 = 6 ∨ item.2 = 8 then (1 : ℤ) else 0),
      toLex ((if item.2 = 4 then (1 : ℤ) else 0), -(item.2 : ℤ))))

/-- Python's `max(best, key=sort_key)`: fold keeping the current element
unless a strictly greater key appears (so the first maximum wins). -/
def maxBySortKey (l : List (Nat × Nat)) (h : Nat × Nat) : Nat × Nat :=
  l.foldl (fun acc x => if sort_key acc < sort_key x then x else acc) h

/-- The `find_fork_move`: index creating two or more simultaneous threats,
chosen by the descending priority key, or `none`. -/
def find_fork_move (b : Board) (symbol : Cell) : Option Nat :=
  match fork_candidates b symbol with
  | [] => none
  | h :: t => some (maxBySortKey t h).2

theorem maxBySortKey_spec (l : List (Nat × Nat)) (h : Nat × Nat) :
    maxBySortKey l h ∈ h :: l ∧ ∀ y ∈ h :: l, sort_key y ≤ sort_key (maxBySortKey l h) := by
  induction l generalizing h with
  | nil =>
    refine ⟨List.mem_singleton.mpr rfl, ?_⟩
    intro y hy
    rw [List.mem_singleton.mp hy]
    exact le_of_eq rfl
  | cons x t ih =>
    have hstep : maxBySortKey (x :: t) h
        = maxBySortKey t (if sort_key h < sort_key x then x else h) := rfl
    rcases ih (if sort_key h < sort_key x then x else h) with ⟨hmem, hle⟩
    constructor
    · rw [hstep]
      rcases List.mem_cons.mp hmem with he | ht
      · rw [he]
        split <;> simp
      · exact List.mem_cons_of_mem _ (List.mem_cons_of_mem _ ht)
    · intro y hy
      rw [hstep]
      rcases List.mem_cons.mp hy with rfl | hyt
      · refine le_trans ?_ (hle _ (List.mem_cons_self _ _))
        split
        · exact le_of_lt (by assumption)
        · exact le_refl _
      · rcases List.mem_cons.mp hyt with rfl | hyt2
        · refine le_trans ?_ (hle _ (List.mem_cons_self _ _))
          split
          · exact le_refl _
          · exact le_of_not_lt (by assumption)
        · exact hle y (List.mem_cons_of_mem _ hyt2)

theorem mem_fork_candidates {b : Board} {s : Cell} {c i : Nat} :
    (c, i) ∈ fork_candidates b s ↔
      i < 9 ∧ cellAt b i = Cell.E ∧ 2 ≤ two_way_count (b.set i s) s ∧
        c = two_way_count (b.set i s) s := by
  rw [fork_candidates, List.mem_filterMap]
  constructor
  · rintro ⟨a, ha, hfa⟩
    by_cases he : cellAt b a = Cell.E
    · by_cases h2 : 2 ≤ two_way_count (b.set a s) s
      · rw [if_pos he, if_pos h2, Option.some_inj, Prod.mk.injEq] at hfa
        rcases hfa with ⟨rfl, rfl⟩
        exact ⟨List.mem_range.mp ha, he, h2, rfl⟩
      · rw [if_pos he, if_neg h2] at hfa; cases hfa
    · rw [if_neg he] at hfa; cases hfa
  · rintro ⟨h9, he, h2, rfl⟩
    refine ⟨i, List.mem_range.mpr h9, ?_⟩
    rw [if_pos he, if_pos h2]

/-- C8: `find_fork_move` returns `none` iff no empty cell yields at least
two two-way threats; otherwise it returns the qualifying cell maximal
under the priority key `(count, corner, center, -idx)` (more threats
first, then corners, then center, then the lowest index); and a single
`O` on an otherwise empty board yields no fork. -/
theorem find_fork_move_spec :
    (∀ b : Board, ∀ s : Cell, b.length = 9 →
      (find_fork_move b s = none ↔
        ∀ i, i < b.length → cellAt b i = Cell.E → two_way_count (b.set i s) s < 2)
      ∧ (∀ i, find_fork_move b s = some i →
          i < b.length ∧ cellAt b i = Cell.E ∧ 2 ≤ two_way_count (b.set i s) s ∧
          ∀ j, j < b.length → cellAt b j = Cell.E →
            2 ≤ two_way_count (b.set j s) s → j ≠ i →
            sort_key (two_way_count (b.set j s) s, j)
              < sort_key (two_way_count (b.set i s) s, i)))
    ∧ find_fork_move
        [Cell.O, Cell.E, Cell.E, Cell.E, Cell.E, Cell.E, Cell.E, Cell.E, Cell.E]
        Cell.O = none := by
  constructor
  · intro b s hL
    constructor
    · constructor
      · intro hnone i hi he
        by_contra h2
        have hmem : (two_way_count (b.set i s) s, i) ∈ fork_candidates b s :=
          mem_fork_candidates.mpr ⟨by omega, he, by omega, rfl⟩
        rcases hcand : fork_candidates b s with _ | ⟨h, t⟩
        · rw [hcand] at hmem; cases hmem
        · rw [find_fork_move, hcand] at hnone; cases hnone
      · intro hall
        rcases hcand : fork_candidates b s with _ | ⟨h, t⟩
        · rw [find_fork_move, hcand]
        · rcases h with ⟨c, i'⟩
          have hmem : (c, i') ∈ fork_candidates b s := by
            rw [hcand]; exact List.mem_cons_self _ _
          rcases mem_fork_candidates.mp hmem with ⟨h9, he, h2, _⟩
          exact absurd h2 (by have := hall i' (by omega) he; omega)
    · intro i hfind
      rcases hcand : fork_candidates b s with _ | ⟨h, t⟩
      · rw [find_fork_move, hcand] at hfind; cases hfind
      · rw [find_fork_move, hcand, Option.some_inj] at hfind
        rcases maxBySortKey_spec t h with ⟨hmem, hle⟩
        rcases hp : maxBySortKey t h with ⟨c, i'⟩
        rw [hp] at hmem hle hfind
        simp only at hfind
        cases hfind
        have hmemc : (c, i) ∈ fork_candidates b s := by rw [hcand]; exact hmem
        rcases mem_fork_candidates.mp hmemc with ⟨h9, he, h2, hc⟩
        cases hc
        refine ⟨by omega, he, h2, ?_⟩
        intro j hj hje hj2 hji
        have hjmem : (two_way_count (b.set j s) s, j) ∈ fork_candidates b s :=
          mem_fork_candidates.mpr ⟨by omega, hje, hj2, rfl⟩
        have hjle := hle _ (hcand ▸ hjmem)
        rcases lt_or_eq_of_le hjle with hlt | heq
        · exact hlt
        · exfalso
          have hnegeq : -(j : ℤ) = -(i : ℤ) :=
            congrArg (fun k => (ofLex (ofLex (ofLex k).2).2).2) heq
          exact hji (by omega)
  · decide

/-- Witness for C8 at a concrete input: with `O` at indices 0 and 4,
`find_fork_move` selects index 2, a qualifying double-threat cell. -/
theorem find_fork_move_spec_witness :
    find_fork_move [Cell.O, Cell.E, Cell.E, Cell.E, Cell.O, Cell.E, Cell.E, Cell.E,
      Cell.E] Cell.O = some 2 ∧
    2 ≤ two_way_count (([Cell.O, Cell.E, Cell.E, Cell.E, Cell.O, Cell.E, Cell.E,
      Cell.E, Cell.E] : Board).set 2 Cell.O) Cell.O := by
  refine ⟨by decide, ?_⟩
  have h := (find_fork_move_spec.1
    [Cell.O, Cell.E, Cell.E, Cell.E, Cell.O, Cell.E, Cell.E, Cell.E, Cell.E]
    Cell.O (by decide)).2 2 (by decide)
  exact h.2.2.1

/-- Running maximum over an optional accumulator; `none` plays the role of
Python's `-inf` start value. -/
def omax : Option Int → Int → Option Int
  | none, x => some x
  | some m, x => some (max m x)

/-- Running minimum; `none` is Python's `+inf` start value. -/
def omin : Option Int → Int → Option Int
  | none, x => some x
  | some m, x => some (min m x)

/-- The uncached minimax recursion of `_minimax` (the AI is `O`, the
player is `X`; wins are scored `10 - depth`, losses `depth - 10`, full
boards `0`).  `fuel` bounds the recursion depth; every theorem assumes
`countEmpty b ≤ fuel`, which always holds at fuel 9 on 9-cell boards. -/
def minimax : Nat → Board → Bool → Nat → Int
  | fuel, b, is_ai_turn, depth =>
    match check_winner b with
    | some Cell.O => 10 - (depth : Int)
    | some Cell.X => (depth : Int) - 10
    | _ =>
      if board_full b then 0
      else
        match fuel with
        | 0 => 0
        | fuel + 1 =>
          if is_ai_turn then
            (((empties b).map
              (fun idx => minimax fuel (b.set idx Cell.O) false (depth + 1))).foldl
                omax none).getD 0
          else
            (((empties b).map
              (fun idx => minimax fuel (b.set idx Cell.X) true (depth + 1))).foldl
                omin none).getD 0

/-- The transposition table `_MINIMAX_CACHE`, keyed by
`("".join(board), is_ai_turn)`, as explicit threaded state.  Inserts only
happen on lookup misses, so keys stay distinct and list length equals the
Python `len`. -/
abbrev Cache := List ((String × Bool) × Int)

def cacheGet (c : Cache) (k : String × Bool) : Option Int :=
  (c.find? (fun e => e.1 == k)).map (fun e => e.2)

def MINIMAX_CACHE_LIMIT : Nat := 2048

/-- The per-move loop body of `_minimax`: simulate each move, recurse via
`f`, fold the score with `g`, threading the cache. -/
def scanMoves (f : Board → Cache → Int × Cache) (g : Option Int → Int → Option Int)
    (sym : Cell) : List Nat → Board → Option Int → Cache → Option Int × Cache
  | [], _, best, c => (best, c)
  | i :: rest, b, best, c =>
    let r := f (b.set i sym) c
    scanMoves f g sym rest b (g best r.1) r.2

/-- The `_minimax` with its transposition table: terminal checks, cache
lookup, recursion over empty cells, clear-at-capacity eviction, insert. -/
def minimaxC : Nat → Board → Bool → Nat → Cache → Int × Cache
  | fuel, b, is_ai_turn, depth, cache =>
    match check_winner b with
    | some Cell.O => (10 - (depth : Int), cache)
    | some Cell.X => ((depth : Int) - 10, cache)
    | _ =>
      if board_full b then (0, cache)
      else
        match cacheGet cache (serialize b, is_ai_turn) with
        | some v => (v, cache)
        | none =>
          match fuel with
          | 0 => (0, cache)
          | fuel + 1 =>
            let r :=
              if is_ai_turn then
                scanMoves (fun b' c' => minimaxC fuel b' false (depth + 1) c')
                  omax Cell.O (empties b) b none cache
              else
                scanMoves (fun b' c' => minimaxC fuel b' true (depth + 1) c')
                  omin Cell.X (empties b) b none cache
            let best := r.1.getD 0
            let c2 := if MINIMAX_CACHE_LIMIT ≤ r.2.length then [] else r.2
            (best, ((serialize b, is_ai_turn), best) :: c2)

/-- The selection loop of `ai_move_hard`: simulate `O` on each empty cell
in ascending order, score it with `_minimax(board, False, 0)`, keep the
index only on a strictly greater score (`best_score` starts at `-inf`,
`best_idx` at 0). -/
def aiGo : List Nat → Board → Option Int → Nat → Cache → Nat × Cache
  | [], _, _, best_idx, c => (best_idx, c)
  | i :: rest, b, best_score, best_idx, c =>
    let r := minimaxC 9 (b.set i Cell.O) false 0 c
    match best_score with
    | none => aiGo rest b (some r.1) i r.2
    | some m =>
      if m < r.1 then aiGo rest b (some r.1) i r.2
      else aiGo rest b best_score best_idx r.2

/-- The `ai_move_hard`: optimal `O` move by minimax (threading the
transposition table). -/
def ai_move_hard (b : Board) (cache : Cache) : Nat × Cache :=
  aiGo (empties b) b none 0 cache

/-- The selection loop of `best_player_hint`: simulate `X`, score with
`_minimax(board, True, 0)`, keep the index only on a strictly smaller
score (`best_idx` starts at `None`). -/
def hintGo : List Nat → Board → Option Int → Option Nat → Cache → Option Nat × Cache
  | [], _, _, best_idx, c => (best_idx, c)
  | i :: rest, b, best_score, best_idx, c =>
    let r := minimaxC 9 (b.set i Cell.X) true 0 c
    match best_score with
    | none => hintGo rest b (some r.1) (some i) r.2
    | some m =>
      if r.1 < m then hintGo rest b (some r.1) (some i) r.2
      else hintGo rest b best_score best_idx r.2

/-- The `best_player_hint`: best `X` move by minimizing the AI's outcome. -/
def best_player_hint (b : Board) (cache : Cache) : Option Nat × Cache :=
  hintGo (empties b) b none none cache

/-- Number of non-empty cells. -/
def pieces (b : Board) : Nat :=
  b.length - countEmpty b

theorem cellAt_eq (b : Board) (i : Nat) (h : i < b.length) : cellAt b i = b[i] := by
  rw [cellAt, List.getD]
  rw [List.get?_eq_getElem?, List.getElem?_eq_getElem h]
  rfl

theorem board_full_iff_countEmpty {b : Board} :
    board_full b = true ↔ countEmpty b = 0 := by
  rw [board_full, List.all_eq_true, countEmpty, List.length_eq_zero]
  constructor
  · intro h
    rcases he : empties b with _ | ⟨i, t⟩
    · rfl
    · exfalso
      have hi : i ∈ empties b := by rw [he]; exact List.mem_cons_self _ _
      rcases mem_empties.mp hi with ⟨hlen, hcell⟩
      rw [cellAt_eq b i hlen] at hcell
      have hb := h b[i] (List.getElem_mem hlen)
      rw [hcell] at hb
      simp at hb
  · intro h c hc
    rcases List.mem_iff_getElem.mp hc with ⟨i, hlen, rfl⟩
    by_contra hne
    have hmem : i ∈ empties b := mem_empties.mpr ⟨hlen, by
      rw [cellAt_eq b i hlen]
      simpa using hne⟩
    rw [h] at hmem
    cases hmem

theorem countEmpty_set_succ {b : Board} {i : Nat} {c : Cell} (hc : c ≠ Cell.E)
    (hi : i ∈ empties b) : countEmpty (b.set i c) + 1 = countEmpty b := by
  rw [countEmpty_set hc hi]
  have := countEmpty_pos hi
  omega

theorem pieces_set {b : Board} {i : Nat} {c : Cell} (hc : c ≠ Cell.E)
    (hi : i ∈ empties b) : pieces (b.set i c) = pieces b + 1 := by
  have h2 := countEmpty_set_succ hc hi
  have h3 := countEmpty_le_length b
  rw [pieces, pieces, List.length_set]
  omega

/-- Folding `omax` from `some m0` yields the maximum of `m0` and the list. -/
theorem foldl_omax_acc (l : List Int) :
    ∀ m0 : Int, ∃ m, l.foldl omax (some m0) = some m ∧ m0 ≤ m ∧
      (m = m0 ∨ m ∈ l) ∧ ∀ x ∈ l, x ≤ m := by
  induction l with
  | nil => exact fun m0 => ⟨m0, rfl, le_refl _, Or.inl rfl, by simp⟩
  | cons x t ih =>
    intro m0
    rcases ih (max m0 x) with ⟨m, hm, hle, hmem, hall⟩
    refine ⟨m, ?_, le_trans (le_max_left _ _) hle, ?_, ?_⟩
    · simpa [omax] using hm
    · rcases hmem with he | hmemt
      · rcases max_choice m0 x with h1 | h1
        · exact Or.inl (by rw [he, h1])
        · exact Or.inr (by rw [he, h1]; exact List.mem_cons_self _ _)
      · exact Or.inr (List.mem_cons_of_mem _ hmemt)
    · intro y hy
      rcases List.mem_cons.mp hy with rfl | hyt
      · exact le_trans (le_max_right _ _) hle
      · exact hall y hyt

theorem foldl_omax_none {l : List Int} (h : l ≠ []) :
    ∃ m, l.foldl omax none = some m ∧ m ∈ l ∧ ∀ x ∈ l, x ≤ m := by
  rcases l with _ | ⟨x, t⟩
  · exact absurd rfl h
  · rcases foldl_omax_acc t x with ⟨m, hm, hle, hmem, hall⟩
    refine ⟨m, by simpa [omax] using hm, ?_, ?_⟩
    · rcases hmem with rfl | hmemt
      · exact List.mem_cons_self _ _
      · exact List.mem_cons_of_mem _ hmemt
    · intro y hy
      rcases List.mem_cons.mp hy with rfl | hyt
      · exact hle
      · exact hall y hyt

theorem foldl_omin_acc (l : List Int) :
    ∀ m0 : Int, ∃ m, l.foldl omin (some m0) = some m ∧ m ≤ m0 ∧
      (m = m0 ∨ m ∈ l) ∧ ∀ x ∈ l, m ≤ x := by
  induction l with
  | nil => exact fun m0 => ⟨m0, rfl, le_refl _, Or.inl rfl, by simp⟩
  | cons x t ih =>
    intro m0
    rcases ih (min m0 x) with ⟨m, hm, hle, hmem, hall⟩
    refine ⟨m, ?_, le_trans hle (min_le_left _ _), ?_, ?_⟩
    · simpa [omin] using hm
    · rcases hmem with he | hmemt
      · rcases min_choice m0 x with h1 | h1
        · exact Or.inl (by rw [he, h1])
        · exact Or.inr (by rw [he, h1]; exact List.mem_cons_self _ _)
      · exact Or.inr (List.mem_cons_of_mem _ hmemt)
    · intro y hy
      rcases List.mem_cons.mp hy with rfl | hyt
      · exact le_trans hle (min_le_right _ _)
      · exact hall y hyt

theorem foldl_omin_none {l : List Int} (h : l ≠ []) :
    ∃ m, l.foldl omin none = some m ∧ m ∈ l ∧ ∀ x ∈ l, m ≤ x := by
  rcases l with _ | ⟨x, t⟩
  · exact absurd rfl h
  · rcases foldl_omin_acc t x with ⟨m, hm, hle, hmem, hall⟩
    refine ⟨m, by simpa [omin] using hm, ?_, ?_⟩
    · rcases hmem with rfl | hmemt
      · exact List.mem_cons_self _ _
      · exact List.mem_cons_of_mem _ hmemt
    · intro y hy
      rcases List.mem_cons.mp hy with rfl | hyt
      · exact hle
      · exact hall y hyt

theorem empties_ne_nil_of_not_full {b : Board} (h : board_full b = false) :
    empties b ≠ [] := by
  intro hnil
  have : countEmpty b = 0 := by rw [countEmpty, hnil]; rfl
  rw [← board_full_iff_countEmpty] at this
  rw [this] at h
  cases h

theorem check_winner_ne_someE {b : Board} : check_winner b ≠ some Cell.E := by
  intro h
  rcases List.exists_of_findSome?_eq_some h with ⟨t, _, hf⟩
  by_cases hcond : cellAt b t.1 = cellAt b t.2.1 ∧ cellAt b t.2.1 = cellAt b t.2.2 ∧
      cellAt b t.1 ≠ Cell.E
  · rw [if_pos hcond, Option.some_inj] at hf
    exact hcond.2.2 hf
  · rw [if_neg hcond] at hf
    cases hf

theorem serialize_inj {b b' : Board} (h : serialize b = serialize b') : b = b' := by
  rw [serialize, serialize] at h
  have hl : b.map Cell.char = b'.map Cell.char := by
    have := congrArg String.data h
    simpa using this
  have hinj : Function.Injective Cell.char := by
    intro x y hxy
    cases x <;> cases y <;> first | rfl | (exfalso; simp [Cell.char] at hxy)
  exact List.map_injective_iff.mpr hinj hl

/-- Depth-free sign of the minimax value (a proof-side helper, not a
source function): 1 when the position is a forced `O` win, -1 a forced
`X` win, 0 a forced draw, with the same turn convention as `_minimax`. -/
def mmSign : Nat → Board → Bool → Int
  | fuel, b, is_ai_turn =>
    match check_winner b with
    | some Cell.O => 1
    | some Cell.X => -1
    | _ =>
      if board_full b then 0
      else
        match fuel with
        | 0 => 0
        | fuel + 1 =>
          if is_ai_turn then
            (((empties b).map (fun i => mmSign fuel (b.set i Cell.O) false)).foldl
              omax none).getD 0
          else
            (((empties b).map (fun i => mmSign fuel (b.set i Cell.X) true)).foldl
              omin none).getD 0

/-- The `mmSign` at its canonical fuel. -/
def sgn (b : Board) (t : Bool) : Int :=
  mmSign (countEmpty b) b t

theorem minimax_eq_winO {b : Board} {fuel d : Nat} {t : Bool}
    (h : check_winner b = some Cell.O) : minimax fuel b t d = 10 - (d : Int) := by
  cases fuel <;> simp [minimax, h]

theorem minimax_eq_winX {b : Board} {fuel d : Nat} {t : Bool}
    (h : check_winner b = some Cell.X) : minimax fuel b t d = (d : Int) - 10 := by
  cases fuel <;> simp [minimax, h]

theorem minimax_eq_full {b : Board} {fuel d : Nat} {t : Bool}
    (hw : check_winner b = none) (hf : board_full b = true) :
    minimax fuel b t d = 0 := by
  cases fuel <;> simp [minimax, hw, hf]

theorem minimax_eq_zero_fuel {b : Board} {d : Nat} {t : Bool}
    (hw : check_winner b = none) (hf : board_full b = false) :
    minimax 0 b t d = 0 := by
  simp [minimax, hw, hf]

theorem minimax_eq_true {b : Board} {fuel d : Nat}
    (hw : check_winner b = none) (hf : board_full b = false) :
    minimax (fuel + 1) b true d =
      (((empties b).map
        (fun i => minimax fuel (b.set i Cell.O) false (d + 1))).foldl omax none).getD 0 := by
  simp [minimax, hw, hf]

theorem minimax_eq_false {b : Board} {fuel d : Nat}
    (hw : check_winner b = none) (hf : board_full b = false) :
    minimax (fuel + 1) b false d =
      (((empties b).map
        (fun i => minimax fuel (b.set i Cell.X) true (d + 1))).foldl omin none).getD 0 := by
  simp [minimax, hw, hf]

theorem mmSign_eq_winO {b : Board} {fuel : Nat} {t : Bool}
    (h : check_winner b = some Cell.O) : mmSign fuel b t = 1 := by
  cases fuel <;> simp [mmSign, h]

theorem mmSign_eq_winX {b : Board} {fuel : Nat} {t : Bool}
    (h : check_winner b = some Cell.X) : mmSign fuel b t = -1 := by
  cases fuel <;> simp [mmSign, h]

theorem mmSign_eq_full {b : Board} {fuel : Nat} {t : Bool}
    (hw : check_winner b = none) (hf : board_full b = true) :
    mmSign fuel b t = 0 := by
  cases fuel <;> simp [mmSign, hw, hf]

theorem mmSign_eq_true {b : Board} {fuel : Nat}
    (hw : check_winner b = none) (hf : board_full b = false) :
    mmSign (fuel + 1) b true =
      (((empties b).map (fun i => mmSign fuel (b.set i Cell.O) false)).foldl
        omax none).getD 0 := by
  simp [mmSign, hw, hf]

theorem mmSign_eq_false {b : Board} {fuel : Nat}
    (hw : check_winner b = none) (hf : board_full b = false) :
    mmSign (fuel + 1) b false =
      (((empties b).map (fun i => mmSign fuel (b.set i Cell.X) true)).foldl
        omin none).getD 0 := by
  simp [mmSign, hw, hf]

theorem minimaxC_eq_winO {b : Board} {fuel d : Nat} {t : Bool} {c : Cache}
    (h : check_winner b = some Cell.O) : minimaxC fuel b t d c = (10 - (d : Int), c) := by
  cases fuel <;> simp [minimaxC, h]

theorem minimaxC_eq_winX {b : Board} {fuel d : Nat} {t : Bool} {c : Cache}
    (h : check_winner b = some Cell.X) : minimaxC fuel b t d c = ((d : Int) - 10, c) := by
  cases fuel <;> simp [minimaxC, h]

theorem minimaxC_eq_full {b : Board} {fuel d : Nat} {t : Bool} {c : Cache}
    (hw : check_winner b = none) (hf : board_full b = true) :
    minimaxC fuel b t d c = (0, c) := by
  cases fuel <;> simp [minimaxC, hw, hf]

theorem minimaxC_eq_hit {b : Board} {fuel d : Nat} {t : Bool} {c : Cache} {v : Int}
    (hw : check_winner b = none) (hf : board_full b = false)
    (hh : cacheGet c (serialize b, t) = some v) :
    minimaxC fuel b t d c = (v, c) := by
  cases fuel <;> simp [minimaxC, hw, hf, hh]

theorem minimaxC_eq_miss_true {b : Board} {fuel d : Nat} {c : Cache}
    (hw : check_winner b = none) (hf : board_full b = false)
    (hm : cacheGet c (serialize b, true) = none) :
    minimaxC (fuel + 1) b true d c =
      (((scanMoves (fun b' c' => minimaxC fuel b' false (d + 1) c')
          omax Cell.O (empties b) b none c).1.getD 0),
       ((serialize b, true),
          (scanMoves (fun b' c' => minimaxC fuel b' false (d + 1) c')
            omax Cell.O (empties b) b none c).1.getD 0) ::
         (if MINIMAX_CACHE_LIMIT ≤
             (scanMoves (fun b' c' => minimaxC fuel b' false (d + 1) c')
               omax Cell.O (empties b) b none c).2.length
          then []
          else (scanMoves (fun b' c' => minimaxC fuel b' false (d + 1) c')
            omax Cell.O (empties b) b none c).2)) := by
  simp [minimaxC, hw, hf, hm]

theorem minimaxC_eq_miss_false {b : Board} {fuel d : Nat} {c : Cache}
    (hw : check_winner b = none) (hf : board_full b = false)
    (hm : cacheGet c (serialize b, false) = none) :
    minimaxC (fuel + 1) b false d c =
      (((scanMoves (fun b' c' => minimaxC fuel b' true (d + 1) c')
          omin Cell.X (empties b) b none c).1.getD 0),
       ((serialize b, false),
          (scanMoves (fun b' c' => minimaxC fuel b' true (d + 1) c')
            omin Cell.X (empties b) b none c).1.getD 0) ::
         (if MINIMAX_CACHE_LIMIT ≤
             (scanMoves (fun b' c' => minimaxC fuel b' true (d + 1) c')
               omin Cell.X (empties b) b none c).2.length
          then []
          else (scanMoves (fun b' c' => minimaxC fuel b' true (d + 1) c')
            omin Cell.X (empties b) b none c).2)) := by
  simp [minimaxC, hw, hf, hm]

theorem minimaxC_eq_zero_fuel {b : Board} {d : Nat} {t : Bool} {c : Cache}
    (hw : check_winner b = none) (hf : board_full b = false)
    (hm : cacheGet c (serialize b, t) = none) :
    minimaxC 0 b t d c = (0, c) := by
  simp [minimaxC, hw, hf, hm]

theorem cell_X_ne_E : Cell.X ≠ Cell.E := by decide

theorem cell_O_ne_E : Cell.O ≠ Cell.E := by decide

/-- The value of the uncached minimax does not depend on the fuel, as long
as the fuel dominates the number of empty cells. -/
theorem minimax_fuel_irrel :
    ∀ f g : Nat, ∀ b : Board, ∀ t : Bool, ∀ d : Nat,
      countEmpty b ≤ f → countEmpty b ≤ g → minimax f b t d = minimax g b t d := by
  intro f
  induction f with
  | zero =>
    intro g b t d hf hg
    have h0 : countEmpty b = 0 := Nat.le_zero.mp hf
    have hfull : board_full b = true := board_full_iff_countEmpty.mpr h0
    rcases hw : check_winner b with _ | w
    · rw [minimax_eq_full hw hfull, minimax_eq_full hw hfull]
    · cases w
      · exact absurd hw check_winner_ne_someE
      · rw [minimax_eq_winX hw, minimax_eq_winX hw]
      · rw [minimax_eq_winO hw, minimax_eq_winO hw]
  | succ f ih =>
    intro g b t d hf hg
    rcases hw : check_winner b with _ | w
    · by_cases hfull : board_full b = true
      · rw [minimax_eq_full hw hfull, minimax_eq_full hw hfull]
      · have hfull' : board_full b = false := by simpa using hfull
        cases g with
        | zero =>
          have h0 : countEmpty b = 0 := Nat.le_zero.mp hg
          rw [board_full_iff_countEmpty.mpr h0] at hfull'
          cases hfull'
        | succ g =>
          cases t
          · rw [minimax_eq_false hw hfull', minimax_eq_false hw hfull']
            have hmap : (empties b).map
                (fun i => minimax f (b.set i Cell.X) true (d + 1)) =
                (empties b).map (fun i => minimax g (b.set i Cell.X) true (d + 1)) := by
              apply List.map_congr_left
              intro i hi
              have hce := countEmpty_set_succ cell_X_ne_E hi
              exact ih g (b.set i Cell.X) true (d + 1) (by omega) (by omega)
            rw [hmap]
          · rw [minimax_eq_true hw hfull', minimax_eq_true hw hfull']
            have hmap : (empties b).map
                (fun i => minimax f (b.set i Cell.O) false (d + 1)) =
                (empties b).map (fun i => minimax g (b.set i Cell.O) false (d + 1)) := by
              apply List.map_congr_left
              intro i hi
              have hce := countEmpty_set_succ cell_O_ne_E hi
              exact ih g (b.set i Cell.O) false (d + 1) (by omega) (by omega)
            rw [hmap]
    · cases w
      · exact absurd hw check_winner_ne_someE
      · rw [minimax_eq_winX hw, minimax_eq_winX hw]
      · rw [minimax_eq_winO hw, minimax_eq_winO hw]

/-- The same fuel-irrelevance for the sign helper. -/
theorem mmSign_fuel_irrel :
    ∀ f g : Nat, ∀ b : Board, ∀ t : Bool,
      countEmpty b ≤ f → countEmpty b ≤ g → mmSign f b t = mmSign g b t := by
  intro f
  induction f with
  | zero =>
    intro g b t hf hg
    have h0 : countEmpty b = 0 := Nat.le_zero.mp hf
    have hfull : board_full b = true := board_full_iff_countEmpty.mpr h0
    rcases hw : check_winner b with _ | w
    · rw [mmSign_eq_full hw hfull, mmSign_eq_full hw hfull]
    · cases w
      · exact absurd hw check_winner_ne_someE
      · rw [mmSign_eq_winX hw, mmSign_eq_winX hw]
      · rw [mmSign_eq_winO hw, mmSign_eq_winO hw]
  | succ f ih =>
    intro g b t hf hg
    rcases hw : check_winner b with _ | w
    · by_cases hfull : board_full b = true
      · rw [mmSign_eq_full hw hfull, mmSign_eq_full hw hfull]
      · have hfull' : board_full b = false := by simpa using hfull
        cases g with
        | zero =>
          have h0 : countEmpty b = 0 := Nat.le_zero.mp hg
          rw [board_full_iff_countEmpty.mpr h0] at hfull'
          cases hfull'
        | succ g =>
          cases t
          · rw [mmSign_eq_false hw hfull', mmSign_eq_false hw hfull']
            have hmap : (empties b).map (fun i => mmSign f (b.set i Cell.X) true) =
                (empties b).map (fun i => mmSign g (b.set i Cell.X) true) := by
              apply List.map_congr_left
              intro i hi
              have hce := countEmpty_set_succ cell_X_ne_E hi
              exact ih g (b.set i Cell.X) true (by omega) (by omega)
            rw [hmap]
          · rw [mmSign_eq_true hw hfull', mmSign_eq_true hw hfull']
            have hmap : (empties b).map (fun i => mmSign f (b.set i Cell.O) false) =
                (empties b).map (fun i => mmSign g (b.set i Cell.O) false) := by
              apply List.map_congr_left
              intro i hi
              have hce := countEmpty_set_succ cell_O_ne_E hi
              exact ih g (b.set i Cell.O) false (by omega) (by omega)
            rw [hmap]
    · cases w
      · exact absurd hw check_winner_ne_someE
      · rw [mmSign_eq_winX hw, mmSign_eq_winX hw]
      · rw [mmSign_eq_winO hw, mmSign_eq_winO hw]

/-- Generic specification of the `_minimax` per-move loop: if every child
call returns a known value and preserves a cache invariant, the loop
folds the values and preserves the invariant. -/
theorem scanMoves_exact (f : Board → Cache → Int × Cache)
    (g : Option Int → Int → Option Int) (sym : Cell) (moves : List Nat) (b : Board)
    (P : Cache → Prop) (v : Nat → Int)
    (hrec : ∀ i ∈ moves, ∀ c, P c → (f (b.set i sym) c).1 = v i ∧ P (f (b.set i sym) c).2) :
    ∀ acc c, P c →
      (scanMoves f g sym moves b acc c).1 = moves.foldl (fun a i => g a (v i)) acc ∧
      P (scanMoves f g sym moves b acc c).2 := by
  induction moves with
  | nil => exact fun acc c hc => ⟨rfl, hc⟩
  | cons i rest ih =>
    intro acc c hc
    rcases hrec i (List.mem_cons_self _ _) c hc with ⟨hv, hP⟩
    simp only [scanMoves, List.foldl_cons]
    rw [hv]
    exact ih (fun j hj => hrec j (List.mem_cons_of_mem _ hj)) _ _ hP

theorem cacheGet_mem {c : Cache} {k : String × Bool} {v : Int}
    (h : cacheGet c k = some v) : (k, v) ∈ c := by
  rw [cacheGet] at h
  rcases hf : c.find? (fun e => e.1 == k) with _ | e
  · rw [hf] at h; cases h
  · rw [hf] at h
    simp only [Option.map_some', Option.some_inj] at h
    have hm := List.mem_of_find?_eq_some hf
    have hk := List.find?_some hf
    rcases e with ⟨k', v'⟩
    simp only at h hk
    rw [beq_iff_eq] at hk
    rw [← h, ← hk]
    exact hm

/-- A cache is aligned at root piece-count `β` when every entry for a
9-cell board records the uncached minimax score of that board at the
depth it has in a search whose root had `β` pieces.  This is exactly the
state of `_MINIMAX_CACHE` after any number of searches started from root
boards with `β` pieces (for example, the empty cache). -/
def alignedCache (β : Nat) (c : Cache) : Prop :=
  ∀ k v, (k, v) ∈ c → ∀ b : Board, b.length = 9 → serialize b = k.1 →
    β ≤ pieces b ∧ v = minimax (countEmpty b) b k.2 (pieces b - β)

theorem alignedCache_nil (β : Nat) : alignedCache β [] := by
  intro k v hkv
  cases hkv

theorem alignedCache_cons {β : Nat} {c2 : Cache} {k0 : String × Bool} {w : Int}
    (hent : ∀ b' : Board, b'.length = 9 → serialize b' = k0.1 →
      β ≤ pieces b' ∧ w = minimax (countEmpty b') b' k0.2 (pieces b' - β))
    (hc2 : alignedCache β c2) : alignedCache β ((k0, w) :: c2) := by
  intro k v hkv b' hb'L hb's
  rcases List.mem_cons.mp hkv with he | hmem
  · have hk : k = k0 := congrArg Prod.fst he
    have hv : v = w := congrArg Prod.snd he
    subst hk
    subst hv
    exact hent b' hb'L hb's
  · exact hc2 k v hmem b' hb'L hb's

/-- Memoized = uncached minimax, for depth-aligned caches: the
transposition table affects only performance as long as every cached
value was produced at the depth the current search would reach its board
at. -/
theorem minimaxC_aligned :
    ∀ fuel : Nat, ∀ b : Board, ∀ t : Bool, ∀ d : Nat, ∀ c : Cache, ∀ β : Nat,
      b.length = 9 → countEmpty b ≤ fuel → alignedCache β c → pieces b = β + d →
      (minimaxC fuel b t d c).1 = minimax fuel b t d ∧
      alignedCache β (minimaxC fuel b t d c).2 := by
  intro fuel
  induction fuel with
  | zero =>
    intro b t d c β hL hf hal hd
    have h0 : countEmpty b = 0 := Nat.le_zero.mp hf
    have hfull : board_full b = true := board_full_iff_countEmpty.mpr h0
    rcases hw : check_winner b with _ | w
    · rw [minimaxC_eq_full hw hfull, minimax_eq_full hw hfull]
      exact ⟨rfl, hal⟩
    · cases w
      · exact absurd hw check_winner_ne_someE
      · rw [minimaxC_eq_winX hw, minimax_eq_winX hw]
        exact ⟨rfl, hal⟩
      · rw [minimaxC_eq_winO hw, minimax_eq_winO hw]
        exact ⟨rfl, hal⟩
  | succ fuel ih =>
    intro b t d c β hL hf hal hd
    rcases hw : check_winner b with _ | w
    · by_cases hfull : board_full b = true
      · rw [minimaxC_eq_full hw hfull, minimax_eq_full hw hfull]
        exact ⟨rfl, hal⟩
      · have hfull' : board_full b = false := by simpa using hfull
        rcases hhit : cacheGet c (serialize b, t) with _ | v
        · -- cache miss: recurse over the empty cells
          have hrec : ∀ sym : Cell, sym ≠ Cell.E → ∀ t' : Bool,
              ∀ i ∈ empties b, ∀ c' : Cache, alignedCache β c' →
              (minimaxC fuel (b.set i sym) t' (d + 1) c').1
                  = minimax fuel (b.set i sym) t' (d + 1) ∧
              alignedCache β (minimaxC fuel (b.set i sym) t' (d + 1) c').2 := by
            intro sym hsym t' i hi c' hc'
            have hce := countEmpty_set_succ hsym hi
            exact ih (b.set i sym) t' (d + 1) c' β
              (by rw [List.length_set]; exact hL) (by omega) hc'
              (by rw [pieces_set hsym hi]; omega)
          have hins : ∀ w : Int, w = minimax (fuel + 1) b t d →
              ∀ b' : Board, b'.length = 9 → serialize b' = (serialize b, t).1 →
              β ≤ pieces b' ∧ w = minimax (countEmpty b') b' (serialize b, t).2
                (pieces b' - β) := by
            intro w hwv b' hb'L hb's
            simp only at hb's ⊢
            have hbb := serialize_inj hb's
            subst hbb
            refine ⟨by omega, ?_⟩
            rw [hwv]
            have hpd : pieces b' - β = d := by omega
            rw [hpd]
            exact minimax_fuel_irrel (fuel + 1) (countEmpty b') b' t d hf (le_refl _)
          cases t
          · rw [minimaxC_eq_miss_false hw hfull' hhit, minimax_eq_false hw hfull']
            rcases scanMoves_exact (fun b' c' => minimaxC fuel b' true (d + 1) c')
                omin Cell.X (empties b) b (alignedCache β)
                (fun i => minimax fuel (b.set i Cell.X) true (d + 1))
                (hrec Cell.X cell_X_ne_E true) none c hal with ⟨hv1, hP1⟩
            rw [hv1, ← List.foldl_map]
            constructor
            · rfl
            · apply alignedCache_cons
              · apply hins
                rw [minimax_eq_false hw hfull']
              · split
                · exact alignedCache_nil β
                · exact hP1
          · rw [minimaxC_eq_miss_true hw hfull' hhit, minimax_eq_true hw hfull']
            rcases scanMoves_exact (fun b' c' => minimaxC fuel b' false (d + 1) c')
                omax Cell.O (empties b) b (alignedCache β)
                (fun i => minimax fuel (b.set i Cell.O) false (d + 1))
                (hrec Cell.O cell_O_ne_E false) none c hal with ⟨hv1, hP1⟩
            rw [hv1, ← List.foldl_map]
            constructor
            · rfl
            · apply alignedCache_cons
              · apply hins
                rw [minimax_eq_true hw hfull']
              · split
                · exact alignedCache_nil β
                · exact hP1
        · -- cache hit: the aligned entry stores the pure value
          rw [minimaxC_eq_hit hw hfull' hhit]
          have hmem := cacheGet_mem hhit
          rcases hal _ _ hmem b hL rfl with ⟨hβ, hv⟩
          constructor
          · rw [hv]
            have hpd : pieces b - β = d := by omega
            rw [hpd]
            exact minimax_fuel_irrel (countEmpty b) (fuel + 1) b t d (le_refl _) hf
          · exact hal
    · cases w
      · exact absurd hw check_winner_ne_someE
      · rw [minimaxC_eq_winX hw, minimax_eq_winX hw]
        exact ⟨rfl, hal⟩
      · rw [minimaxC_eq_winO hw, minimax_eq_winO hw]
        exact ⟨rfl, hal⟩

/-- C2 (amended): the transposition table is score-transparent for
depth-aligned caches.  For every 9-cell board, turn flag, depth and cache
whose entries were produced by earlier searches rooted at boards with the
same piece count `β` (in particular the empty cache), the memoized
`_minimax` returns exactly the score of the pure uncached minimax, and
leaves the cache aligned again.  (Without the alignment hypothesis the
statement is false: see the counterexample theorem.) -/
theorem minimax_memo_extensional :
    ∀ fuel : Nat, ∀ b : Board, ∀ t : Bool, ∀ d : Nat, ∀ c : Cache, ∀ β : Nat,
      b.length = 9 → countEmpty b ≤ fuel → alignedCache β c → pieces b = β + d →
      (minimaxC fuel b t d c).1 = minimax fuel b t d ∧
      alignedCache β (minimaxC fuel b t d c).2 :=
  minimaxC_aligned

/-- Witness for C2 at a concrete input: a one-empty-cell board searched
from the empty cache agrees with the pure minimax. -/
theorem minimax_memo_extensional_witness :
    (minimaxC 9 [Cell.O, Cell.O, Cell.E, Cell.X, Cell.X, Cell.O, Cell.X, Cell.O,
        Cell.X] true 0 []).1
      = minimax 9 [Cell.O, Cell.O, Cell.E, Cell.X, Cell.X, Cell.O, Cell.X, Cell.O,
        Cell.X] true 0 ∧
    alignedCache 8 (minimaxC 9 [Cell.O, Cell.O, Cell.E, Cell.X, Cell.X, Cell.O,
        Cell.X, Cell.O, Cell.X] true 0 []).2 :=
  minimax_memo_extensional 9
    [Cell.O, Cell.O, Cell.E, Cell.X, Cell.X, Cell.O, Cell.X, Cell.O, Cell.X]
    true 0 [] 8 (by decide) (by decide) (alignedCache_nil 8) (by decide)

/-- Counterexample to C2 as stated: cache entries inserted by an earlier
search started from a different root (here: the same board first searched
at depth 2, as happens below a root with fewer pieces) change the
returned score.  On this board `O` completes a row: searched at depth 2
the position scores `10 - 3 = 7` and is cached under a depth-free key;
re-searching it at depth 0 with that cache returns the stale 7, while the
empty cache gives `10 - 1 = 9`. -/
theorem minimax_cache_dependence :
    (minimaxC 9 [Cell.O, Cell.O, Cell.E, Cell.X, Cell.X, Cell.O, Cell.X, Cell.O,
        Cell.X] true 0
      (minimaxC 9 [Cell.O, Cell.O, Cell.E, Cell.X, Cell.X, Cell.O, Cell.X, Cell.O,
        Cell.X] true 2 []).2).1 = 7 ∧
    (minimaxC 9 [Cell.O, Cell.O, Cell.E, Cell.X, Cell.X, Cell.O, Cell.X, Cell.O,
        Cell.X] true 0 []).1 = 9 ∧ (7 : Int) ≠ 9 :=
  ⟨by decide, by decide, by decide⟩

theorem int_sign_mono : Monotone Int.sign := by
  intro a b h
  rcases lt_trichotomy a 0 with ha | ha | ha
  · rcases lt_trichotomy b 0 with hb | hb | hb
    · rw [Int.sign_eq_neg_one_iff_neg.mpr ha, Int.sign_eq_neg_one_iff_neg.mpr hb]
    · rw [Int.sign_eq_neg_one_iff_neg.mpr ha, hb, Int.sign_zero]; omega
    · rw [Int.sign_eq_neg_one_iff_neg.mpr ha, Int.sign_eq_one_iff_pos.mpr hb]; omega
  · rw [ha, Int.sign_zero]
    rcases lt_trichotomy b 0 with hb | hb | hb
    · omega
    · rw [hb, Int.sign_zero]
    · rw [Int.sign_eq_one_iff_pos.mpr hb]; omega
  · rw [Int.sign_eq_one_iff_pos.mpr ha, Int.sign_eq_one_iff_pos.mpr (lt_of_lt_of_le ha h)]

theorem sign_omax (a : Option Int) (v : Int) :
    Option.map Int.sign (omax a v) = omax (Option.map Int.sign a) (Int.sign v) := by
  cases a with
  | none => rfl
  | some m =>
    simp only [omax, Option.map_some']
    rw [int_sign_mono.map_max]

theorem sign_omin (a : Option Int) (v : Int) :
    Option.map Int.sign (omin a v) = omin (Option.map Int.sign a) (Int.sign v) := by
  cases a with
  | none => rfl
  | some m =>
    simp only [omin, Option.map_some']
    rw [int_sign_mono.map_min]

/-- A cache is sign-correct when every entry for a 9-cell board has the
game-theoretic outcome sign of its position.  Every cache produced by the
program's own searches is sign-correct, whatever mixture of root depths
produced it. -/
def signCorrect (c : Cache) : Prop :=
  ∀ k v, (k, v) ∈ c → ∀ b : Board, b.length = 9 → serialize b = k.1 →
    Int.sign v = sgn b k.2

theorem signCorrect_nil : signCorrect [] := by
  intro k v hkv
  cases hkv

theorem signCorrect_cons {c2 : Cache} {k0 : String × Bool} {w : Int}
    (hent : ∀ b' : Board, b'.length = 9 → serialize b' = k0.1 →
      Int.sign w = sgn b' k0.2)
    (hc2 : signCorrect c2) : signCorrect ((k0, w) :: c2) := by
  intro k v hkv b' hb'L hb's
  rcases List.mem_cons.mp hkv with he | hmem
  · have hk : k = k0 := congrArg Prod.fst he
    have hv : v = w := congrArg Prod.snd he
    subst hk
    subst hv
    exact hent b' hb'L hb's
  · exact hc2 k v hmem b' hb'L hb's

theorem sgn_eq_true {b : Board} (hw : check_winner b = none)
    (hf : board_full b = false) :
    sgn b true =
      (((empties b).map (fun i => sgn (b.set i Cell.O) false)).foldl omax none).getD 0 := by
  have h0 : countEmpty b ≠ 0 := fun h =>
    by rw [board_full_iff_countEmpty.mpr h] at hf; cases hf
  rcases hk : countEmpty b with _ | k
  · exact absurd hk h0
  · rw [sgn, hk, mmSign_eq_true hw hf]
    have hmap : (empties b).map (fun i => mmSign k (b.set i Cell.O) false) =
        (empties b).map (fun i => sgn (b.set i Cell.O) false) := by
      apply List.map_congr_left
      intro i hi
      have hce := countEmpty_set_succ cell_O_ne_E hi
      rw [sgn]
      have hck : countEmpty (b.set i Cell.O) = k := by omega
      rw [hck]
    rw [hmap]

theorem sgn_eq_false {b : Board} (hw : check_winner b = none)
    (hf : board_full b = false) :
    sgn b false =
      (((empties b).map (fun i => sgn (b.set i Cell.X) true)).foldl omin none).getD 0 := by
  have h0 : countEmpty b ≠ 0 := fun h =>
    by rw [board_full_iff_countEmpty.mpr h] at hf; cases hf
  rcases hk : countEmpty b with _ | k
  · exact absurd hk h0
  · rw [sgn, hk, mmSign_eq_false hw hf]
    have hmap : (empties b).map (fun i => mmSign k (b.set i Cell.X) true) =
        (empties b).map (fun i => sgn (b.set i Cell.X) true) := by
      apply List.map_congr_left
      intro i hi
      have hce := countEmpty_set_succ cell_X_ne_E hi
      rw [sgn]
      have hck : countEmpty (b.set i Cell.X) = k := by omega
      rw [hck]
    rw [hmap]

/-- Sign analogue of the scan specification: when only the signs of the
child scores are known, the sign of the folded score is the fold of the
signs. -/
theorem scanMoves_sign (f : Board → Cache → Int × Cache)
    (g : Option Int → Int → Option Int)
    (hg : ∀ a v, Option.map Int.sign (g a v) = g (Option.map Int.sign a) (Int.sign v))
    (sym : Cell) (moves : List Nat) (b : Board) (P : Cache → Prop) (s : Nat → Int)
    (hrec : ∀ i ∈ moves, ∀ c, P c →
      Int.sign (f (b.set i sym) c).1 = s i ∧ P (f (b.set i sym) c).2) :
    ∀ acc c, P c →
      Option.map Int.sign (scanMoves f g sym moves b acc c).1 =
        moves.foldl (fun a i => g a (s i)) (Option.map Int.sign acc) ∧
      P (scanMoves f g sym moves b acc c).2 := by
  induction moves with
  | nil => exact fun acc c hc => ⟨rfl, hc⟩
  | cons i rest ih =>
    intro acc c hc
    rcases hrec i (List.mem_cons_self _ _) c hc with ⟨hv, hP⟩
    simp only [scanMoves, List.foldl_cons]
    have hstep : Option.map Int.sign (g acc (f (b.set i sym) c).1) =
        g (Option.map Int.sign acc) (s i) := by
      rw [hg, hv]
    rcases ih (fun j hj => hrec j (List.mem_cons_of_mem _ hj)) (g acc (f (b.set i sym) c).1)
      (f (b.set i sym) c).2 hP with ⟨h1, h2⟩
    rw [h1, hstep]
    exact ⟨rfl, h2⟩

theorem sgn_winO {b : Board} {t : Bool} (h : check_winner b = some Cell.O) :
    sgn b t = 1 := mmSign_eq_winO h

theorem sgn_winX {b : Board} {t : Bool} (h : check_winner b = some Cell.X) :
    sgn b t = -1 := mmSign_eq_winX h

theorem sgn_full {b : Board} {t : Bool} (hw : check_winner b = none)
    (hf : board_full b = true) : sgn b t = 0 := mmSign_eq_full hw hf

/-- With any sign-correct cache (however stale its depths), `_minimax`
returns a score whose sign is the true game-theoretic outcome of the
position, and leaves the cache sign-correct. -/
theorem minimaxC_sign :
    ∀ fuel : Nat, ∀ b : Board, ∀ t : Bool, ∀ d : Nat, ∀ c : Cache,
      b.length = 9 → countEmpty b ≤ fuel → d + countEmpty b ≤ 9 → signCorrect c →
      Int.sign (minimaxC fuel b t d c).1 = sgn b t ∧
      signCorrect (minimaxC fuel b t d c).2 := by
  intro fuel
  induction fuel with
  | zero =>
    intro b t d c hL hf hd hsc
    have h0 : countEmpty b = 0 := Nat.le_zero.mp hf
    have hfull : board_full b = true := board_full_iff_countEmpty.mpr h0
    rcases hw : check_winner b with _ | w
    · rw [minimaxC_eq_full hw hfull, sgn_full hw hfull]
      exact ⟨Int.sign_zero, hsc⟩
    · cases w
      · exact absurd hw check_winner_ne_someE
      · rw [minimaxC_eq_winX hw, sgn_winX hw]
        exact ⟨Int.sign_eq_neg_one_iff_neg.mpr (by omega), hsc⟩
      · rw [minimaxC_eq_winO hw, sgn_winO hw]
        exact ⟨Int.sign_eq_one_iff_pos.mpr (by omega), hsc⟩
  | succ fuel ih =>
    intro b t d c hL hf hd hsc
    rcases hw : check_winner b with _ | w
    · by_cases hfull : board_full b = true
      · rw [minimaxC_eq_full hw hfull, sgn_full hw hfull]
        exact ⟨Int.sign_zero, hsc⟩
      · have hfull' : board_full b = false := by simpa using hfull
        rcases hhit : cacheGet c (serialize b, t) with _ | v
        · -- cache miss
          have hne : empties b ≠ [] := empties_ne_nil_of_not_full hfull'
          have hrec : ∀ sym : Cell, sym ≠ Cell.E → ∀ t' : Bool,
              ∀ i ∈ empties b, ∀ c' : Cache, signCorrect c' →
              Int.sign (minimaxC fuel (b.set i sym) t' (d + 1) c').1
                  = sgn (b.set i sym) t' ∧
              signCorrect (minimaxC fuel (b.set i sym) t' (d + 1) c').2 := by
            intro sym hsym t' i hi c' hc'
            have hce := countEmpty_set_succ hsym hi
            exact ih (b.set i sym) t' (d + 1) c'
              (by rw [List.length_set]; exact hL) (by omega) (by omega) hc'
          cases t
          · rw [minimaxC_eq_miss_false hw hfull' hhit]
            rcases scanMoves_sign (fun b' c' => minimaxC fuel b' true (d + 1) c')
                omin sign_omin Cell.X (empties b) b signCorrect
                (fun i => sgn (b.set i Cell.X) true)
                (hrec Cell.X cell_X_ne_E true) none c hsc with ⟨hv1, hP1⟩
            rw [← List.foldl_map] at hv1
            simp only [Option.map_none'] at hv1
            have hneL : (empties b).map (fun i => sgn (b.set i Cell.X) true) ≠ [] := by
              simpa using hne
            rcases foldl_omin_none hneL with ⟨σ, hσ, hmemσ, hallσ⟩
            rw [hσ] at hv1
            rcases hsc1 : (scanMoves (fun b' c' => minimaxC fuel b' true (d + 1) c')
                omin Cell.X (empties b) b none c).1 with _ | m
            · rw [hsc1] at hv1; cases hv1
            · rw [hsc1] at hv1
              have hsm : Int.sign m = σ := by
                simpa using hv1
              have hbest : Int.sign m = sgn b false := by
                rw [hsm, sgn_eq_false hw hfull', hσ]
                rfl
              constructor
              · exact hbest
              · apply signCorrect_cons
                · intro b' hb'L hb's
                  have hbb := serialize_inj hb's
                  subst hbb
                  exact hbest
                · split
                  · exact signCorrect_nil
                  · exact hP1
          · rw [minimaxC_eq_miss_true hw hfull' hhit]
            rcases scanMoves_sign (fun b' c' => minimaxC fuel b' false (d + 1) c')
                omax sign_omax Cell.O (empties b) b signCorrect
                (fun i => sgn (b.set i Cell.O) false)
                (hrec Cell.O cell_O_ne_E false) none c hsc with ⟨hv1, hP1⟩
            rw [← List.foldl_map] at hv1
            simp only [Option.map_none'] at hv1
            have hneL : (empties b).map (fun i => sgn (b.set i Cell.O) false) ≠ [] := by
              simpa using hne
            rcases foldl_omax_none hneL with ⟨σ, hσ, hmemσ, hallσ⟩
            rw [hσ] at hv1
            rcases hsc1 : (scanMoves (fun b' c' => minimaxC fuel b' false (d + 1) c')
                omax Cell.O (empties b) b none c).1 with _ | m
            · rw [hsc1] at hv1; cases hv1
            · rw [hsc1] at hv1
              have hsm : Int.sign m = σ := by
                simpa using hv1
              have hbest : Int.sign m = sgn b true := by
                rw [hsm, sgn_eq_true hw hfull', hσ]
                rfl
              constructor
              · exact hbest
              · apply signCorrect_cons
                · intro b' hb'L hb's
                  have hbb := serialize_inj hb's
                  subst hbb
                  exact hbest
                · split
                  · exact signCorrect_nil
                  · exact hP1
        · -- cache hit
          rw [minimaxC_eq_hit hw hfull' hhit]
          have hmem := cacheGet_mem hhit
          exact ⟨hsc _ _ hmem b hL rfl, hsc⟩
    · cases w
      · exact absurd hw check_winner_ne_someE
      · rw [minimaxC_eq_winX hw, sgn_winX hw]
        exact ⟨Int.sign_eq_neg_one_iff_neg.mpr (by omega), hsc⟩
      · rw [minimaxC_eq_winO hw, sgn_winO hw]
        exact ⟨Int.sign_eq_one_iff_pos.mpr (by omega), hsc⟩

/-- The strict-improvement selection loop of `ai_move_hard` always keeps
an index whose simulated position has the best outcome sign seen so far,
threading a sign-correct cache. -/
theorem aiGo_sound :
    ∀ moves : List Nat, ∀ b : Board, ∀ c : Cache, ∀ m : Int, ∀ bi : Nat,
      b.length = 9 → signCorrect c →
      (∀ i ∈ moves, i ∈ empties b) → bi ∈ empties b →
      Int.sign m = sgn (b.set bi Cell.O) false →
      signCorrect (aiGo moves b (some m) bi c).2 ∧
      (aiGo moves b (some m) bi c).1 ∈ empties b ∧
      ∃ m' : Int, Int.sign m' = sgn (b.set (aiGo moves b (some m) bi c).1 Cell.O) false ∧
        m ≤ m' ∧ ∀ i ∈ moves, sgn (b.set i Cell.O) false ≤ Int.sign m' := by
  intro moves
  induction moves with
  | nil =>
    intro b c m bi hL hsc _ hbi hm
    exact ⟨hsc, hbi, m, hm, le_refl _, by simp⟩
  | cons i rest ih =>
    intro b c m bi hL hsc hmov hbi hm
    have hiE : i ∈ empties b := hmov i (List.mem_cons_self _ _)
    have hLset : (b.set i Cell.O).length = 9 := by rw [List.length_set]; exact hL
    have hcE : countEmpty (b.set i Cell.O) ≤ 9 := by
      have := countEmpty_le_length (b.set i Cell.O)
      omega
    rcases minimaxC_sign 9 (b.set i Cell.O) false 0 c hLset hcE (by omega) hsc
      with ⟨hsgn, hsc'⟩
    simp only [aiGo]
    by_cases hlt : m < (minimaxC 9 (b.set i Cell.O) false 0 c).1
    · rw [if_pos hlt]
      rcases ih b (minimaxC 9 (b.set i Cell.O) false 0 c).2
          (minimaxC 9 (b.set i Cell.O) false 0 c).1 i hL hsc'
          (fun j hj => hmov j (List.mem_cons_of_mem _ hj)) hiE hsgn
        with ⟨hsc2, hmem2, m', hsgn', hle', hall'⟩
      refine ⟨hsc2, hmem2, m', hsgn', le_trans (le_of_lt hlt) hle', ?_⟩
      intro i0 hi0
      rcases List.mem_cons.mp hi0 with rfl | hi0r
      · rw [← hsgn]
        exact int_sign_mono hle'
      · exact hall' i0 hi0r
    · rw [if_neg hlt]
      rcases ih b (minimaxC 9 (b.set i Cell.O) false 0 c).2 m bi hL hsc'
          (fun j hj => hmov j (List.mem_cons_of_mem _ hj)) hbi hm
        with ⟨hsc2, hmem2, m', hsgn', hle', hall'⟩
      refine ⟨hsc2, hmem2, m', hsgn', hle', ?_⟩
      intro i0 hi0
      rcases List.mem_cons.mp hi0 with rfl | hi0r
      · rw [← hsgn]
        exact int_sign_mono (le_trans (le_of_not_lt hlt) hle')
      · exact hall' i0 hi0r

/-- In a non-terminal position with a non-losing outcome for `O`,
`ai_move_hard` picks an empty cell whose resulting position is still
non-losing for `O`, and keeps the cache sign-correct. -/
theorem ai_move_hard_safe (b : Board) (c : Cache) (hL : b.length = 9)
    (hsc : signCorrect c) (hw : check_winner b = none) (hfull : board_full b = false)
    (hpos : 0 ≤ sgn b true) :
    (ai_move_hard b c).1 ∈ empties b ∧
    0 ≤ sgn (b.set (ai_move_hard b c).1 Cell.O) false ∧
    signCorrect (ai_move_hard b c).2 := by
  have hne : empties b ≠ [] := empties_ne_nil_of_not_full hfull
  rcases List.exists_cons_of_ne_nil hne with ⟨i0, rest, he⟩
  · have hi0 : i0 ∈ empties b := by rw [he]; exact List.mem_cons_self _ _
    have hLset : (b.set i0 Cell.O).length = 9 := by rw [List.length_set]; exact hL
    have hcE : countEmpty (b.set i0 Cell.O) ≤ 9 := by
      have := countEmpty_le_length (b.set i0 Cell.O)
      omega
    rcases minimaxC_sign 9 (b.set i0 Cell.O) false 0 c hLset hcE (by omega) hsc
      with ⟨hsgn0, hsc0⟩
    have hrun : ai_move_hard b c =
        aiGo rest b (some (minimaxC 9 (b.set i0 Cell.O) false 0 c).1) i0
          (minimaxC 9 (b.set i0 Cell.O) false 0 c).2 := by
      rw [ai_move_hard, he]
      rfl
    rcases aiGo_sound rest b (minimaxC 9 (b.set i0 Cell.O) false 0 c).2
        (minimaxC 9 (b.set i0 Cell.O) false 0 c).1 i0 hL hsc0
        (fun j hj => by rw [he]; exact List.mem_cons_of_mem _ hj) hi0 hsgn0
      with ⟨hsc2, hmem2, m', hsgn', hle', hall'⟩
    rw [hrun]
    refine ⟨hmem2, ?_, hsc2⟩
    -- some empty cell keeps the game non-losing; the kept maximum dominates it
    have hσ : ∃ j ∈ empties b, 0 ≤ sgn (b.set j Cell.O) false := by
      have hEse := sgn_eq_true hw hfull
      have hneL : (empties b).map (fun i => sgn (b.set i Cell.O) false) ≠ [] := by
        simpa using hne
      rcases foldl_omax_none hneL with ⟨σ, hσf, hmemσ, _⟩
      rw [hσf] at hEse
      simp only [Option.getD_some] at hEse
      rcases List.mem_map.mp hmemσ with ⟨j, hj, hjv⟩
      exact ⟨j, hj, by rw [hjv, ← hEse]; exact hpos⟩
    rcases hσ with ⟨j, hj, hjpos⟩
    rw [he] at hj
    rw [← hsgn']
    rcases List.mem_cons.mp hj with rfl | hjr
    · calc (0 : Int) ≤ sgn (b.set j Cell.O) false := hjpos
        _ = Int.sign (minimaxC 9 (b.set j Cell.O) false 0 c).1 := hsgn0.symm
        _ ≤ Int.sign m' := int_sign_mono hle'
    · exact le_trans hjpos (hall' j hjr)

/-- A round is over when someone has won or the board is full. -/
def gameOver (b : Board) : Bool :=
  (check_winner b).isSome || board_full b

/-- Play out a game against the Hard AI: `X` plays the listed moves, `O`
answers each with `ai_move_hard`, threading the transposition table
across moves as the program's module-level cache does. -/
def runGame : Board → Cache → List Nat → Board × Cache
  | b, c, [] => (b, c)
  | b, c, m :: ms =>
    if gameOver b then (b, c)
    else
      if gameOver (b.set m Cell.X) then (b.set m Cell.X, c)
      else runGame
        ((b.set m Cell.X).set (ai_move_hard (b.set m Cell.X) c).1 Cell.O)
        (ai_move_hard (b.set m Cell.X) c).2 ms

/-- The `X` moves of a play are valid when each lands on an empty cell of
the evolving board (moves after the game has ended are ignored). -/
def validPlay : Board → Cache → List Nat → Bool
  | _, _, [] => true
  | b, c, m :: ms =>
    if gameOver b then true
    else
      decide (m ∈ empties b) &&
      (if gameOver (b.set m Cell.X) then true
       else validPlay
         ((b.set m Cell.X).set (ai_move_hard (b.set m Cell.X) c).1 Cell.O)
         (ai_move_hard (b.set m Cell.X) c).2 ms)

theorem gameOver_false {b : Board} (h : gameOver b = false) :
    check_winner b = none ∧ board_full b = false := by
  rw [gameOver, Bool.or_eq_false_iff] at h
  exact ⟨Option.not_isSome_iff_eq_none.mp (by rw [h.1]; simp), h.2⟩

/-- Invariant run of a play: from a non-losing `X`-to-move position with
a sign-correct cache, a game where `O` answers with `ai_move_hard` never
ends with an `X` win. -/
theorem runGame_safe :
    ∀ ms : List Nat, ∀ b : Board, ∀ c : Cache,
      b.length = 9 → signCorrect c → 0 ≤ sgn b false →
      validPlay b c ms = true →
      check_winner (runGame b c ms).1 ≠ some Cell.X := by
  intro ms
  induction ms with
  | nil =>
    intro b c hL hsc hpos _ hX
    simp only [runGame] at hX
    rw [sgn_winX hX] at hpos
    omega
  | cons m ms ih =>
    intro b c hL hsc hpos hvalid
    by_cases hgo : gameOver b = true
    · simp only [runGame, hgo, if_true]
      intro hX
      rw [sgn_winX hX] at hpos
      omega
    · have hgo' : gameOver b = false := by simpa using hgo
      rcases gameOver_false hgo' with ⟨hw, hfull⟩
      simp only [validPlay, hgo', Bool.false_eq_true, if_false, Bool.and_eq_true,
        decide_eq_true_eq] at hvalid
      rcases hvalid with ⟨hm, hrest⟩
      have hpos1 : 0 ≤ sgn (b.set m Cell.X) true := by
        have hEse := sgn_eq_false hw hfull
        have hneL : (empties b).map (fun i => sgn (b.set i Cell.X) true) ≠ [] := by
          simpa using empties_ne_nil_of_not_full hfull
        rcases foldl_omin_none hneL with ⟨σ, hσf, _, hallσ⟩
        rw [hσf] at hEse
        simp only [Option.getD_some] at hEse
        have hmemm : sgn (b.set m Cell.X) true ∈
            (empties b).map (fun i => sgn (b.set i Cell.X) true) :=
          List.mem_map.mpr ⟨m, hm, rfl⟩
        calc (0 : Int) ≤ σ := by rw [← hEse]; exact hpos
          _ ≤ _ := hallσ _ hmemm
      by_cases hgo1 : gameOver (b.set m Cell.X) = true
      · simp only [runGame, hgo', Bool.false_eq_true, if_false, hgo1, if_true]
        intro hX
        rw [sgn_winX hX] at hpos1
        omega
      · have hgo1' : gameOver (b.set m Cell.X) = false := by simpa using hgo1
        rcases gameOver_false hgo1' with ⟨hw1, hfull1⟩
        have hL1 : (b.set m Cell.X).length = 9 := by rw [List.length_set]; exact hL
        rcases ai_move_hard_safe (b.set m Cell.X) c hL1 hsc hw1 hfull1 hpos1
          with ⟨hmemai, hpos2, hsc2⟩
        simp only [runGame, hgo', hgo1', Bool.false_eq_true, if_false]
        simp only [hgo1', Bool.false_eq_true, if_false] at hrest
        exact ih _ _ (by rw [List.length_set, List.length_set]; exact hL) hsc2 hpos2 hrest

theorem sgn_nonneg_of_over {b : Board} {t : Bool} (hgo : gameOver b = true)
    (hX : check_winner b ≠ some Cell.X) : 0 ≤ sgn b t := by
  rcases hw : check_winner b with _ | w
  · have hfull : board_full b = true := by
      rw [gameOver, hw] at hgo
      simpa using hgo
    rw [sgn_full hw hfull]
  · cases w
    · exact absurd hw check_winner_ne_someE
    · exact absurd hw hX
    · rw [sgn_winO hw]
      omega

theorem sgn_true_nonneg_of_child {b : Board} (hw : check_winner b = none)
    (hfull : board_full b = false) {j : Nat} (hj : j ∈ empties b)
    (hpos : 0 ≤ sgn (b.set j Cell.O) false) : 0 ≤ sgn b true := by
  rw [sgn_eq_true hw hfull]
  have hneL : (empties b).map (fun i => sgn (b.set i Cell.O) false) ≠ [] := by
    simpa using empties_ne_nil_of_not_full hfull
  rcases foldl_omax_none hneL with ⟨σ, hσf, _, hallσ⟩
  rw [hσf]
  simp only [Option.getD_some]
  exact le_trans hpos (hallσ _ (List.mem_map.mpr ⟨j, hj, rfl⟩))

theorem sgn_false_nonneg_of_all {b : Board} (hw : check_winner b = none)
    (hfull : board_full b = false)
    (h : ∀ i ∈ empties b, 0 ≤ sgn (b.set i Cell.X) true) : 0 ≤ sgn b false := by
  rw [sgn_eq_false hw hfull]
  have hneL : (empties b).map (fun i => sgn (b.set i Cell.X) true) ≠ [] := by
    simpa using empties_ne_nil_of_not_full hfull
  rcases foldl_omin_none hneL with ⟨σ, hσf, hmemσ, _⟩
  rw [hσf]
  simp only [Option.getD_some]
  rcases List.mem_map.mp hmemσ with ⟨j, hj, hjv⟩
  rw [← hjv]
  exact h j hj

/-- A drawing-strategy certificate for `O`: at each `X`-to-move position
the tree holds, for every empty cell `X` could take (in ascending order),
the `O` reply and the subtree after that reply. -/
inductive XTree where
  | mk : List (Nat × XTree) → XTree

/-- Certificate checker: at an `X`-to-move position, every `X` move must
be answered so that `X` never wins; the fuel only bounds the recursion
depth. -/
def checkX : Nat → Board → XTree → Bool
  | 0, _, _ => false
  | fuel + 1, b, XTree.mk l =>
    if gameOver b then decide (check_winner b ≠ some Cell.X)
    else
      ((empties b).length == l.length) &&
      ((empties b).zip l).all (fun p =>
        if gameOver (b.set p.1 Cell.X) then
          decide (check_winner (b.set p.1 Cell.X) ≠ some Cell.X)
        else
          decide (p.2.1 ∈ empties (b.set p.1 Cell.X)) &&
          (if gameOver ((b.set p.1 Cell.X).set p.2.1 Cell.O) then
            decide (check_winner ((b.set p.1 Cell.X).set p.2.1 Cell.O) ≠ some Cell.X)
          else checkX fuel ((b.set p.1 Cell.X).set p.2.1 Cell.O) p.2.2))

/-- A passing certificate proves the position is not losing for `O` with
`X` to move. -/
theorem checkX_sound :
    ∀ fuel : Nat, ∀ b : Board, ∀ t : XTree,
      b.length = 9 → checkX fuel b t = true → 0 ≤ sgn b false := by
  intro fuel
  induction fuel with
  | zero =>
    intro b t _ hch
    simp [checkX] at hch
  | succ fuel ih =>
    intro b t hL hch
    rcases t with ⟨l⟩
    by_cases hgo : gameOver b = true
    · rw [checkX, if_pos hgo, decide_eq_true_eq] at hch
      exact sgn_nonneg_of_over hgo hch
    · have hgo' : gameOver b = false := by simpa using hgo
      rcases gameOver_false hgo' with ⟨hw, hfull⟩
      rw [checkX, if_neg (by rw [hgo']; simp), Bool.and_eq_true] at hch
      rcases hch with ⟨hlen, hall⟩
      rw [Nat.beq_eq_true_eq] at hlen
      rw [List.all_eq_true] at hall
      apply sgn_false_nonneg_of_all hw hfull
      intro i hi
      rcases List.mem_iff_getElem.mp hi with ⟨k, hk, hik⟩
      have hkz : k < ((empties b).zip l).length := by
        rw [List.length_zip]
        omega
      have hpair := hall (((empties b).zip l)[k]) (List.getElem_mem hkz)
      rw [List.getElem_zip] at hpair
      rw [hik] at hpair
      have hkl : k < l.length := by omega
      rcases hq : l[k] with ⟨j, sub⟩
      rw [hq] at hpair
      simp only at hpair
      by_cases hgo1 : gameOver (b.set i Cell.X) = true
      · rw [if_pos hgo1, decide_eq_true_eq] at hpair
        exact sgn_nonneg_of_over hgo1 hpair
      · have hgo1' : gameOver (b.set i Cell.X) = false := by simpa using hgo1
        rcases gameOver_false hgo1' with ⟨hw1, hfull1⟩
        rw [if_neg (by rw [hgo1']; simp), Bool.and_eq_true, decide_eq_true_eq] at hpair
        rcases hpair with ⟨hjmem, hinner⟩
        by_cases hgo2 : gameOver ((b.set i Cell.X).set j Cell.O) = true
        · rw [if_pos hgo2, decide_eq_true_eq] at hinner
          exact sgn_true_nonneg_of_child hw1 hfull1 hjmem
            (sgn_nonneg_of_over hgo2 hinner)
        · rw [if_neg (by simpa using hgo2)] at hinner
          have hL2 : ((b.set i Cell.X).set j Cell.O).length = 9 := by
            rw [List.length_set, List.length_set]
            exact hL
          exact sgn_true_nonneg_of_child hw1 hfull1 hjmem (ih _ _ hL2 hinner)


/-- A concrete drawing-strategy certificate for `O` from the empty board
(generated from the engine's own search; validated by `checkX` below). -/
def oCert : XTree :=
  XTree.mk [(4, XTree.mk [(2, XTree.mk [(6, XTree.mk []), (6, XTree.mk []), (3, XTree.mk [(7, XTree.mk [(0, XTree.mk [])]), (5, XTree.mk []), (5, XTree.mk [])]), (6, XTree.mk []), (6, XTree.mk [])]), (1, XTree.mk [(7, XTree.mk []), (7, XTree.mk []), (7, XTree.mk []), (3, XTree.mk [(8, XTree.mk [(0, XTree.mk [])]), (5, XTree.mk []), (5, XTree.mk [])]), (7, XTree.mk [])]), (6, XTree.mk [(2, XTree.mk []), (1, XTree.mk [(7, XTree.mk []), (5, XTree.mk [(0, XTree.mk [])]), (7, XTree.mk [])]), (2, XTree.mk []), (2, XTree.mk []), (2, XTree.mk [])]), (1, XTree.mk [(7, XTree.mk []), (7, XTree.mk []), (7, XTree.mk []), (6, XTree.mk [(8, XTree.mk [(0, XTree.mk [])]), (2, XTree.mk []), (2, XTree.mk [])]), (7, XTree.mk [])]), (3, XTree.mk [(5, XTree.mk []), (5, XTree.mk []), (1, XTree.mk [(7, XTree.mk []), (8, XTree.mk [(0, XTree.mk [])]), (7, XTree.mk [])]), (5, XTree.mk []), (5, XTree.mk [])]), (3, XTree.mk [(5, XTree.mk []), (5, XTree.mk []), (2, XTree.mk [(6, XTree.mk []), (8, XTree.mk [(0, XTree.mk [])]), (6, XTree.mk [])]), (5, XTree.mk []), (5, XTree.mk [])]), (1, XTree.mk [(7, XTree.mk []), (7, XTree.mk []), (7, XTree.mk []), (7, XTree.mk []), (6, XTree.mk [(5, XTree.mk [(0, XTree.mk [])]), (2, XTree.mk []), (2, XTree.mk [])])])]), (0, XTree.mk [(3, XTree.mk [(6, XTree.mk []), (6, XTree.mk []), (4, XTree.mk [(8, XTree.mk []), (5, XTree.mk []), (5, XTree.mk [])]), (6, XTree.mk []), (6, XTree.mk [])]), (4, XTree.mk [(8, XTree.mk []), (8, XTree.mk []), (8, XTree.mk []), (8, XTree.mk []), (2, XTree.mk [(6, XTree.mk []), (7, XTree.mk [(0, XTree.mk [])]), (6, XTree.mk [])])]), (7, XTree.mk [(6, XTree.mk [(8, XTree.mk []), (3, XTree.mk []), (3, XTree.mk [])]), (5, XTree.mk [(6, XTree.mk [(0, XTree.mk [])]), (2, XTree.mk [(0, XTree.mk [])]), (2, XTree.mk [(0, XTree.mk [])])]), (3, XTree.mk [(6, XTree.mk []), (2, XTree.mk [(0, XTree.mk [])]), (6, XTree.mk [])]), (2, XTree.mk [(5, XTree.mk [(0, XTree.mk [])]), (3, XTree.mk [(0, XTree.mk [])]), (3, XTree.mk [(0, XTree.mk [])])]), (2, XTree.mk [(5, XTree.mk [(0, XTree.mk [])]), (3, XTree.mk [(0, XTree.mk [])]), (3, XTree.mk [(0, XTree.mk [])])])]), (6, XTree.mk [(3, XTree.mk []), (4, XTree.mk [(8, XTree.mk []), (2, XTree.mk []), (2, XTree.mk [])]), (3, XTree.mk []), (3, XTree.mk []), (3, XTree.mk [])]), (4, XTree.mk [(8, XTree.mk []), (8, XTree.mk []), (8, XTree.mk []), (8, XTree.mk []), (7, XTree.mk [(5, XTree.mk [(0, XTree.mk [])]), (2, XTree.mk [(0, XTree.mk [])]), (2, XTree.mk [(0, XTree.mk [])])])]), (4, XTree.mk [(8, XTree.mk []), (8, XTree.mk []), (8, XTree.mk []), (8, XTree.mk []), (6, XTree.mk [(3, XTree.mk []), (2, XTree.mk []), (2, XTree.mk [])])]), (4, XTree.mk [(5, XTree.mk [(6, XTree.mk [(0, XTree.mk [])]), (3, XTree.mk []), (3, XTree.mk [])]), (2, XTree.mk [(6, XTree.mk []), (7, XTree.mk [(0, XTree.mk [])]), (6, XTree.mk [])]), (2, XTree.mk [(6, XTree.mk []), (7, XTree.mk [(0, XTree.mk [])]), (6, XTree.mk [])]), (7, XTree.mk [(5, XTree.mk [(0, XTree.mk [])]), (2, XTree.mk [(0, XTree.mk [])]), (2, XTree.mk [(0, XTree.mk [])])]), (6, XTree.mk [(3, XTree.mk []), (2, XTree.mk []), (2, XTree.mk [])])])]), (4, XTree.mk [(1, XTree.mk [(7, XTree.mk []), (7, XTree.mk []), (7, XTree.mk []), (3, XTree.mk [(8, XTree.mk [(0, XTree.mk [])]), (5, XTree.mk []), (5, XTree.mk [])]), (7, XTree.mk [])]), (0, XTree.mk [(8, XTree.mk []), (8, XTree.mk []), (8, XTree.mk []), (8, XTree.mk []), (5, XTree.mk [(6, XTree.mk [(0, XTree.mk [])]), (3, XTree.mk []), (3, XTree.mk [])])]), (0, XTree.mk [(8, XTree.mk []), (8, XTree.mk []), (8, XTree.mk []), (8, XTree.mk []), (5, XTree.mk [(6, XTree.mk [(0, XTree.mk [])]), (7, XTree.mk [(0, XTree.mk [])]), (6, XTree.mk [(0, XTree.mk [])])])]), (8, XTree.mk [(1, XTree.mk [(7, XTree.mk []), (7, XTree.mk []), (3, XTree.mk [(0, XTree.mk [])])]), (0, XTree.mk []), (0, XTree.mk []), (0, XTree.mk []), (0, XTree.mk [])]), (1, XTree.mk [(7, XTree.mk []), (7, XTree.mk []), (7, XTree.mk []), (8, XTree.mk [(3, XTree.mk [(0, XTree.mk [])]), (0, XTree.mk []), (0, XTree.mk [])]), (7, XTree.mk [])]), (3, XTree.mk [(5, XTree.mk []), (5, XTree.mk []), (8, XTree.mk [(1, XTree.mk [(0, XTree.mk [])]), (0, XTree.mk []), (0, XTree.mk [])]), (5, XTree.mk []), (5, XTree.mk [])]), (5, XTree.mk [(3, XTree.mk []), (3, XTree.mk []), (0, XTree.mk [(6, XTree.mk [(0, XTree.mk [])]), (7, XTree.mk [(0, XTree.mk [])]), (6, XTree.mk [(0, XTree.mk [])])]), (3, XTree.mk []), (3, XTree.mk [])])]), (0, XTree.mk [(4, XTree.mk [(8, XTree.mk []), (8, XTree.mk []), (8, XTree.mk []), (8, XTree.mk []), (2, XTree.mk [(6, XTree.mk []), (7, XTree.mk [(0, XTree.mk [])]), (6, XTree.mk [])])]), (4, XTree.mk [(8, XTree.mk []), (8, XTree.mk []), (8, XTree.mk []), (8, XTree.mk []), (5, XTree.mk [(6, XTree.mk [(0, XTree.mk [])]), (7, XTree.mk [(0, XTree.mk [])]), (6, XTree.mk [(0, XTree.mk [])])])]), (5, XTree.mk [(7, XTree.mk [(6, XTree.mk [(0, XTree.mk [])]), (2, XTree.mk [(0, XTree.mk [])]), (2, XTree.mk [(0, XTree.mk [])])]), (6, XTree.mk [(7, XTree.mk [(0, XTree.mk [])]), (1, XTree.mk [(0, XTree.mk [])]), (1, XTree.mk [(0, XTree.mk [])])]), (2, XTree.mk [(8, XTree.mk []), (1, XTree.mk []), (1, XTree.mk [])]), (1, XTree.mk [(6, XTree.mk [(0, XTree.mk [])]), (2, XTree.mk []), (2, XTree.mk [])]), (1, XTree.mk [(6, XTree.mk [(0, XTree.mk [])]), (2, XTree.mk []), (2, XTree.mk [])])]), (4, XTree.mk [(8, XTree.mk []), (8, XTree.mk []), (8, XTree.mk []), (8, XTree.mk []), (2, XTree.mk [(6, XTree.mk []), (1, XTree.mk []), (1, XTree.mk [])])]), (1, XTree.mk [(4, XTree.mk [(7, XTree.mk []), (8, XTree.mk []), (7, XTree.mk [])]), (2, XTree.mk []), (2, XTree.mk []), (2, XTree.mk []), (2, XTree.mk [])]), (2, XTree.mk [(4, XTree.mk [(6, XTree.mk []), (8, XTree.mk []), (6, XTree.mk [])]), (1, XTree.mk []), (1, XTree.mk []), (1, XTree.mk []), (1, XTree.mk [])]), (2, XTree.mk [(4, XTree.mk [(6, XTree.mk []), (7, XTree.mk [(0, XTree.mk [])]), (6, XTree.mk [])]), (1, XTree.mk []), (1, XTree.mk []), (1, XTree.mk []), (1, XTree.mk [])])]), (0, XTree.mk [(7, XTree.mk [(6, XTree.mk [(8, XTree.mk []), (3, XTree.mk []), (3, XTree.mk [])]), (5, XTree.mk [(6, XTree.mk [(0, XTree.mk [])]), (2, XTree.mk [(0, XTree.mk [])]), (2, XTree.mk [(0, XTree.mk [])])]), (3, XTree.mk [(6, XTree.mk []), (2, XTree.mk [(0, XTree.mk [])]), (6, XTree.mk [])]), (2, XTree.mk [(5, XTree.mk [(0, XTree.mk [])]), (3, XTree.mk [(0, XTree.mk [])]), (3, XTree.mk [(0, XTree.mk [])])]), (2, XTree.mk [(5, XTree.mk [(0, XTree.mk [])]), (3, XTree.mk [(0, XTree.mk [])]), (3, XTree.mk [(0, XTree.mk [])])])]), (6, XTree.mk [(3, XTree.mk []), (5, XTree.mk [(7, XTree.mk [(0, XTree.mk [])]), (1, XTree.mk [(0, XTree.mk [])]), (1, XTree.mk [(0, XTree.mk [])])]), (3, XTree.mk []), (3, XTree.mk []), (3, XTree.mk [])]), (5, XTree.mk [(7, XTree.mk [(6, XTree.mk [(0, XTree.mk [])]), (2, XTree.mk [(0, XTree.mk [])]), (2, XTree.mk [(0, XTree.mk [])])]), (6, XTree.mk [(7, XTree.mk [(0, XTree.mk [])]), (1, XTree.mk [(0, XTree.mk [])]), (1, XTree.mk [(0, XTree.mk [])])]), (2, XTree.mk [(8, XTree.mk []), (1, XTree.mk []), (1, XTree.mk [])]), (1, XTree.mk [(6, XTree.mk [(0, XTree.mk [])]), (2, XTree.mk []), (2, XTree.mk [])]), (1, XTree.mk [(6, XTree.mk [(0, XTree.mk [])]), (2, XTree.mk []), (2, XTree.mk [])])]), (3, XTree.mk [(6, XTree.mk []), (6, XTree.mk []), (2, XTree.mk [(7, XTree.mk [(0, XTree.mk [])]), (1, XTree.mk []), (1, XTree.mk [])]), (6, XTree.mk []), (6, XTree.mk [])]), (2, XTree.mk [(7, XTree.mk [(5, XTree.mk [(0, XTree.mk [])]), (3, XTree.mk [(0, XTree.mk [])]), (3, XTree.mk [(0, XTree.mk [])])]), (1, XTree.mk []), (1, XTree.mk []), (1, XTree.mk []), (1, XTree.mk [])]), (1, XTree.mk [(6, XTree.mk [(5, XTree.mk [(0, XTree.mk [])]), (3, XTree.mk []), (3, XTree.mk [])]), (2, XTree.mk []), (2, XTree.mk []), (2, XTree.mk []), (2, XTree.mk [])]), (2, XTree.mk [(7, XTree.mk [(5, XTree.mk [(0, XTree.mk [])]), (3, XTree.mk [(0, XTree.mk [])]), (3, XTree.mk [(0, XTree.mk [])])]), (1, XTree.mk []), (1, XTree.mk []), (1, XTree.mk []), (1, XTree.mk [])])]), (2, XTree.mk [(3, XTree.mk [(4, XTree.mk [(7, XTree.mk [(0, XTree.mk [])]), (6, XTree.mk []), (6, XTree.mk [])]), (8, XTree.mk [(7, XTree.mk [(0, XTree.mk [])]), (1, XTree.mk [(0, XTree.mk [])]), (1, XTree.mk [(0, XTree.mk [])])]), (4, XTree.mk [(7, XTree.mk [(0, XTree.mk [])]), (8, XTree.mk [(0, XTree.mk [])]), (7, XTree.mk [(0, XTree.mk [])])]), (4, XTree.mk [(6, XTree.mk []), (8, XTree.mk [(0, XTree.mk [])]), (6, XTree.mk [])]), (4, XTree.mk [(6, XTree.mk []), (7, XTree.mk [(0, XTree.mk [])]), (6, XTree.mk [])])]), (3, XTree.mk [(4, XTree.mk [(7, XTree.mk [(0, XTree.mk [])]), (6, XTree.mk []), (6, XTree.mk [])]), (7, XTree.mk [(8, XTree.mk [(0, XTree.mk [])]), (0, XTree.mk [(0, XTree.mk [])]), (0, XTree.mk [(0, XTree.mk [])])]), (4, XTree.mk [(7, XTree.mk [(0, XTree.mk [])]), (8, XTree.mk [(0, XTree.mk [])]), (7, XTree.mk [(0, XTree.mk [])])]), (4, XTree.mk [(6, XTree.mk []), (8, XTree.mk [(0, XTree.mk [])]), (6, XTree.mk [])]), (6, XTree.mk [(4, XTree.mk []), (0, XTree.mk []), (0, XTree.mk [])])]), (4, XTree.mk [(6, XTree.mk []), (6, XTree.mk []), (0, XTree.mk [(8, XTree.mk []), (1, XTree.mk []), (1, XTree.mk [])]), (6, XTree.mk []), (6, XTree.mk [])]), (3, XTree.mk [(8, XTree.mk [(7, XTree.mk [(0, XTree.mk [])]), (1, XTree.mk [(0, XTree.mk [])]), (1, XTree.mk [(0, XTree.mk [])])]), (7, XTree.mk [(8, XTree.mk [(0, XTree.mk [])]), (0, XTree.mk [(0, XTree.mk [])]), (0, XTree.mk [(0, XTree.mk [])])]), (0, XTree.mk [(7, XTree.mk [(0, XTree.mk [])]), (1, XTree.mk []), (1, XTree.mk [])]), (1, XTree.mk [(8, XTree.mk [(0, XTree.mk [])]), (0, XTree.mk []), (0, XTree.mk [])]), (0, XTree.mk [(6, XTree.mk []), (1, XTree.mk []), (1, XTree.mk [])])]), (0, XTree.mk [(4, XTree.mk [(8, XTree.mk []), (8, XTree.mk []), (7, XTree.mk [(0, XTree.mk [])])]), (1, XTree.mk []), (1, XTree.mk []), (1, XTree.mk []), (1, XTree.mk [])]), (0, XTree.mk [(4, XTree.mk [(6, XTree.mk []), (8, XTree.mk []), (6, XTree.mk [])]), (1, XTree.mk []), (1, XTree.mk []), (1, XTree.mk []), (1, XTree.mk [])]), (0, XTree.mk [(6, XTree.mk [(4, XTree.mk []), (3, XTree.mk []), (3, XTree.mk [])]), (1, XTree.mk []), (1, XTree.mk []), (1, XTree.mk []), (1, XTree.mk [])])]), (4, XTree.mk [(3, XTree.mk [(5, XTree.mk []), (5, XTree.mk []), (1, XTree.mk [(7, XTree.mk []), (8, XTree.mk [(0, XTree.mk [])]), (7, XTree.mk [])]), (5, XTree.mk []), (5, XTree.mk [])]), (0, XTree.mk [(8, XTree.mk []), (8, XTree.mk []), (8, XTree.mk []), (8, XTree.mk []), (7, XTree.mk [(5, XTree.mk [(0, XTree.mk [])]), (2, XTree.mk [(0, XTree.mk [])]), (2, XTree.mk [(0, XTree.mk [])])])]), (1, XTree.mk [(7, XTree.mk []), (7, XTree.mk []), (7, XTree.mk []), (8, XTree.mk [(3, XTree.mk [(0, XTree.mk [])]), (0, XTree.mk []), (0, XTree.mk [])]), (7, XTree.mk [])]), (0, XTree.mk [(8, XTree.mk []), (8, XTree.mk []), (8, XTree.mk []), (8, XTree.mk []), (7, XTree.mk [(2, XTree.mk [(0, XTree.mk [])]), (1, XTree.mk []), (1, XTree.mk [])])]), (1, XTree.mk [(7, XTree.mk []), (7, XTree.mk []), (7, XTree.mk []), (8, XTree.mk [(3, XTree.mk [(0, XTree.mk [])]), (0, XTree.mk []), (0, XTree.mk [])]), (7, XTree.mk [])]), (8, XTree.mk [(3, XTree.mk [(5, XTree.mk []), (5, XTree.mk []), (1, XTree.mk [(0, XTree.mk [])])]), (0, XTree.mk []), (0, XTree.mk []), (0, XTree.mk []), (0, XTree.mk [])]), (7, XTree.mk [(1, XTree.mk []), (0, XTree.mk [(5, XTree.mk [(0, XTree.mk [])]), (2, XTree.mk [(0, XTree.mk [])]), (2, XTree.mk [(0, XTree.mk [])])]), (1, XTree.mk []), (1, XTree.mk []), (1, XTree.mk [])])]), (1, XTree.mk [(6, XTree.mk [(4, XTree.mk [(5, XTree.mk [(0, XTree.mk [])]), (8, XTree.mk [(0, XTree.mk [])]), (5, XTree.mk [(0, XTree.mk [])])]), (4, XTree.mk [(5, XTree.mk [(0, XTree.mk [])]), (2, XTree.mk []), (2, XTree.mk [])]), (8, XTree.mk [(3, XTree.mk [(0, XTree.mk [])]), (5, XTree.mk [(0, XTree.mk [])]), (3, XTree.mk [(0, XTree.mk [])])]), (4, XTree.mk [(8, XTree.mk [(0, XTree.mk [])]), (2, XTree.mk []), (2, XTree.mk [])]), (4, XTree.mk [(5, XTree.mk [(0, XTree.mk [])]), (2, XTree.mk []), (2, XTree.mk [])])]), (6, XTree.mk [(4, XTree.mk [(5, XTree.mk [(0, XTree.mk [])]), (8, XTree.mk [(0, XTree.mk [])]), (5, XTree.mk [(0, XTree.mk [])])]), (4, XTree.mk [(5, XTree.mk [(0, XTree.mk [])]), (8, XTree.mk [(0, XTree.mk [])]), (5, XTree.mk [(0, XTree.mk [])])]), (0, XTree.mk [(5, XTree.mk [(0, XTree.mk [])]), (3, XTree.mk []), (3, XTree.mk [])]), (8, XTree.mk [(3, XTree.mk [(0, XTree.mk [])]), (4, XTree.mk [(0, XTree.mk [])]), (3, XTree.mk [(0, XTree.mk [])])]), (5, XTree.mk [(4, XTree.mk [(0, XTree.mk [])]), (0, XTree.mk [(0, XTree.mk [])]), (0, XTree.mk [(0, XTree.mk [])])])]), (6, XTree.mk [(4, XTree.mk [(5, XTree.mk [(0, XTree.mk [])]), (2, XTree.mk []), (2, XTree.mk [])]), (4, XTree.mk [(5, XTree.mk [(0, XTree.mk [])]), (8, XTree.mk [(0, XTree.mk [])]), (5, XTree.mk [(0, XTree.mk [])])]), (5, XTree.mk [(8, XTree.mk [(0, XTree.mk [])]), (0, XTree.mk [(0, XTree.mk [])]), (0, XTree.mk [(0, XTree.mk [])])]), (4, XTree.mk [(2, XTree.mk []), (8, XTree.mk [(0, XTree.mk [])]), (2, XTree.mk [])]), (2, XTree.mk [(4, XTree.mk []), (0, XTree.mk []), (0, XTree.mk [])])]), (0, XTree.mk [(6, XTree.mk [(5, XTree.mk [(0, XTree.mk [])]), (3, XTree.mk []), (3, XTree.mk [])]), (2, XTree.mk []), (2, XTree.mk []), (2, XTree.mk []), (2, XTree.mk [])]), (6, XTree.mk [(4, XTree.mk [(8, XTree.mk [(0, XTree.mk [])]), (2, XTree.mk []), (2, XTree.mk [])]), (8, XTree.mk [(3, XTree.mk [(0, XTree.mk [])]), (4, XTree.mk [(0, XTree.mk [])]), (3, XTree.mk [(0, XTree.mk [])])]), (4, XTree.mk [(2, XTree.mk []), (8, XTree.mk [(0, XTree.mk [])]), (2, XTree.mk [])]), (3, XTree.mk [(8, XTree.mk [(0, XTree.mk [])]), (0, XTree.mk []), (0, XTree.mk [])]), (2, XTree.mk [(4, XTree.mk []), (0, XTree.mk []), (0, XTree.mk [])])]), (8, XTree.mk [(3, XTree.mk [(4, XTree.mk [(0, XTree.mk [])]), (2, XTree.mk [(0, XTree.mk [])]), (2, XTree.mk [(0, XTree.mk [])])]), (4, XTree.mk [(3, XTree.mk [(0, XTree.mk [])]), (0, XTree.mk []), (0, XTree.mk [])]), (0, XTree.mk [(4, XTree.mk []), (2, XTree.mk []), (2, XTree.mk [])]), (2, XTree.mk [(5, XTree.mk []), (0, XTree.mk []), (0, XTree.mk [])]), (0, XTree.mk [(4, XTree.mk []), (2, XTree.mk []), (2, XTree.mk [])])]), (6, XTree.mk [(4, XTree.mk [(5, XTree.mk [(0, XTree.mk [])]), (2, XTree.mk []), (2, XTree.mk [])]), (5, XTree.mk [(4, XTree.mk [(0, XTree.mk [])]), (0, XTree.mk [(0, XTree.mk [])]), (0, XTree.mk [(0, XTree.mk [])])]), (2, XTree.mk [(4, XTree.mk []), (0, XTree.mk []), (0, XTree.mk [])]), (0, XTree.mk [(3, XTree.mk []), (2, XTree.mk []), (2, XTree.mk [])]), (2, XTree.mk [(4, XTree.mk []), (0, XTree.mk []), (0, XTree.mk [])])])]), (4, XTree.mk [(1, XTree.mk [(7, XTree.mk []), (7, XTree.mk []), (7, XTree.mk []), (7, XTree.mk []), (6, XTree.mk [(5, XTree.mk [(0, XTree.mk [])]), (2, XTree.mk []), (2, XTree.mk [])])]), (0, XTree.mk [(5, XTree.mk [(6, XTree.mk [(0, XTree.mk [])]), (3, XTree.mk []), (3, XTree.mk [])]), (2, XTree.mk [(6, XTree.mk []), (7, XTree.mk [(0, XTree.mk [])]), (6, XTree.mk [])]), (2, XTree.mk [(6, XTree.mk []), (7, XTree.mk [(0, XTree.mk [])]), (6, XTree.mk [])]), (7, XTree.mk [(5, XTree.mk [(0, XTree.mk [])]), (2, XTree.mk [(0, XTree.mk [])]), (2, XTree.mk [(0, XTree.mk [])])]), (6, XTree.mk [(3, XTree.mk []), (2, XTree.mk []), (2, XTree.mk [])])]), (5, XTree.mk [(3, XTree.mk []), (3, XTree.mk []), (0, XTree.mk [(6, XTree.mk [(0, XTree.mk [])]), (7, XTree.mk [(0, XTree.mk [])]), (6, XTree.mk [(0, XTree.mk [])])]), (3, XTree.mk []), (3, XTree.mk [])]), (0, XTree.mk [(2, XTree.mk [(6, XTree.mk []), (7, XTree.mk [(0, XTree.mk [])]), (6, XTree.mk [])]), (5, XTree.mk [(6, XTree.mk [(0, XTree.mk [])]), (7, XTree.mk [(0, XTree.mk [])]), (6, XTree.mk [(0, XTree.mk [])])]), (2, XTree.mk [(6, XTree.mk []), (1, XTree.mk []), (1, XTree.mk [])]), (7, XTree.mk [(2, XTree.mk [(0, XTree.mk [])]), (1, XTree.mk []), (1, XTree.mk [])]), (6, XTree.mk [(2, XTree.mk []), (5, XTree.mk [(0, XTree.mk [])]), (2, XTree.mk [])])]), (2, XTree.mk [(6, XTree.mk []), (6, XTree.mk []), (6, XTree.mk []), (7, XTree.mk [(1, XTree.mk []), (0, XTree.mk [(0, XTree.mk [])]), (1, XTree.mk [])]), (6, XTree.mk [])]), (7, XTree.mk [(1, XTree.mk []), (0, XTree.mk [(5, XTree.mk [(0, XTree.mk [])]), (2, XTree.mk [(0, XTree.mk [])]), (2, XTree.mk [(0, XTree.mk [])])]), (1, XTree.mk []), (1, XTree.mk []), (1, XTree.mk [])]), (6, XTree.mk [(2, XTree.mk []), (2, XTree.mk []), (5, XTree.mk [(3, XTree.mk []), (3, XTree.mk []), (0, XTree.mk [(0, XTree.mk [])])]), (2, XTree.mk []), (2, XTree.mk [])])])]

theorem oCert_valid : checkX 9 emptyBoard oCert = true := by decide

/-- The empty board is not losing for `O` (with `X` to move). -/
theorem sgn_emptyBoard_nonneg : 0 ≤ sgn emptyBoard false :=
  checkX_sound 9 emptyBoard oCert (by decide) oCert_valid

/-- Build a board from a sequence of alternating moves (the given symbol
moves first); `none` if any move is illegal or made after the game is
over. -/
def playAlt : Board → Cell → List Nat → Option Board
  | b, _, [] => some b
  | b, sym, m :: ms =>
    if gameOver b = false ∧ m ∈ empties b then
      playAlt (b.set m sym) (if sym = Cell.X then Cell.O else Cell.X) ms
    else none

/-- Continuation of a game from a position with `O` to move: `O` answers
with `ai_move_hard`, then the listed `X` moves alternate with further
`ai_move_hard` replies. -/
def runGameO (b : Board) (c : Cache) (ms : List Nat) : Board × Cache :=
  if gameOver b then (b, c)
  else runGame (b.set (ai_move_hard b c).1 Cell.O) (ai_move_hard b c).2 ms

def validPlayO (b : Board) (c : Cache) (ms : List Nat) : Bool :=
  if gameOver b then true
  else validPlay (b.set (ai_move_hard b c).1 Cell.O) (ai_move_hard b c).2 ms

/-- Counterexample to C1 as stated: after the alternating legal prefix
`X@0, O@3, X@2, O@5, X@4` (three `X`, two `O`, so `O` is to move) the
board is reachable from the empty board with `O` to move, yet playing
`ai_move_hard` for every remaining `O` move still ends in an `X` win:
`X` holds a triple threat (cells 1, 6 and 8), `ai_move_hard` blocks at 1,
and `X` wins at 6.  Quantifying over all reachable boards therefore makes
the claim false, because the earlier `O` moves of the reachable prefix
may already have thrown the game; the property only holds for plays whose
`O` moves all come from `ai_move_hard`. -/
theorem hard_from_reachable_loses :
    playAlt emptyBoard Cell.X [0, 3, 2, 5, 4] =
      some [Cell.X, Cell.E, Cell.X, Cell.O, Cell.X, Cell.O, Cell.E, Cell.E, Cell.E] ∧
    validPlayO [Cell.X, Cell.E, Cell.X, Cell.O, Cell.X, Cell.O, Cell.E, Cell.E,
      Cell.E] [] [6] = true ∧
    check_winner (runGameO [Cell.X, Cell.E, Cell.X, Cell.O, Cell.X, Cell.O, Cell.E,
      Cell.E, Cell.E] [] [6]).1 = some Cell.X :=
  ⟨by decide, by decide, by decide⟩

/-- C1 (amended): in every play that starts from the empty board, where
`X` makes arbitrary legal moves and every `O` move is the one returned by
`ai_move_hard` (the transposition table threading through the whole
play), the final position is never an `X` win. -/
theorem hard_strategy_never_loses :
    ∀ ms : List Nat, validPlay emptyBoard [] ms = true →
      check_winner (runGame emptyBoard [] ms).1 ≠ some Cell.X :=
  fun ms hv =>
    runGame_safe ms emptyBoard [] (by decide) signCorrect_nil sgn_emptyBoard_nonneg hv

/-- Witness for C1 at a concrete input: the one-move play in which `X`
takes the center is valid (the move lands on an empty cell of the empty
board), and the game after `X`'s move and `ai_move_hard`'s reply is not
an `X` win. -/
theorem hard_strategy_never_loses_witness :
    validPlay emptyBoard [] [4] = true ∧
    check_winner (runGame emptyBoard [] [4]).1 ≠ some Cell.X :=
  ⟨by decide, hard_strategy_never_loses [4] (by decide)⟩

/-- Exact behavior of the `ai_move_hard` selection loop over pure scores:
with an aligned cache the loop keeps the first index achieving the
running maximum, so every listed move scores at most the result, and
every listed move before the result scores strictly less. -/
theorem aiGo_exact (b : Board) (P : Cache → Prop) (v : Nat → Int)
    (hrec : ∀ i ∈ empties b, ∀ c, P c → (minimaxC 9 (b.set i Cell.O) false 0 c).1 = v i ∧
      P (minimaxC 9 (b.set i Cell.O) false 0 c).2) :
    ∀ moves : List Nat, ∀ c : Cache, ∀ m : Int, ∀ bi : Nat,
      P c → (∀ i ∈ moves, i ∈ empties b) → m = v bi →
      (∀ i ∈ moves, bi < i) → moves.Pairwise (· < ·) →
      P (aiGo moves b (some m) bi c).2 ∧
      ((aiGo moves b (some m) bi c).1 = bi ∨ (aiGo moves b (some m) bi c).1 ∈ moves) ∧
      m ≤ v (aiGo moves b (some m) bi c).1 ∧
      (∀ i ∈ moves, v i ≤ v (aiGo moves b (some m) bi c).1) ∧
      (∀ i ∈ moves, i < (aiGo moves b (some m) bi c).1 →
        v i < v (aiGo moves b (some m) bi c).1) ∧
      (bi < (aiGo moves b (some m) bi c).1 → m < v (aiGo moves b (some m) bi c).1) := by
  intro moves
  induction moves with
  | nil =>
    intro c m bi hP _ hm _ _
    refine ⟨hP, Or.inl rfl, le_of_eq hm, by simp, by simp, ?_⟩
    intro hlt
    exact absurd hlt (lt_irrefl _)
  | cons i rest ih =>
    intro c m bi hP hsub hm hbi hpw
    have hiE : i ∈ empties b := hsub i (List.mem_cons_self _ _)
    rcases hrec i hiE c hP with ⟨hv1, hP1⟩
    rcases List.pairwise_cons.mp hpw with ⟨hilt, hpw'⟩
    simp only [aiGo]
    by_cases hlt : m < (minimaxC 9 (b.set i Cell.O) false 0 c).1
    · rw [if_pos hlt]
      rw [hv1] at hlt ⊢
      rcases ih (minimaxC 9 (b.set i Cell.O) false 0 c).2 (v i) i hP1
          (fun j hj => hsub j (List.mem_cons_of_mem _ hj)) rfl hilt hpw'
        with ⟨hP2, hmem2, hle2, hall2, hstrict2, hrepl2⟩
      refine ⟨hP2, ?_, le_trans (le_of_lt hlt) hle2, ?_, ?_, ?_⟩
      · rcases hmem2 with he | hmem2
        · exact Or.inr (by rw [he]; exact List.mem_cons_self _ _)
        · exact Or.inr (List.mem_cons_of_mem _ hmem2)
      · intro j hj
        rcases List.mem_cons.mp hj with rfl | hjr
        · exact hle2
        · exact hall2 j hjr
      · intro j hj hjlt
        rcases List.mem_cons.mp hj with rfl | hjr
        · exact hrepl2 hjlt
        · exact hstrict2 j hjr hjlt
      · intro _
        exact lt_of_lt_of_le hlt hle2
    · rw [if_neg hlt]
      rw [hv1] at hlt
      have hvi : v i ≤ m := le_of_not_lt hlt
      rcases ih (minimaxC 9 (b.set i Cell.O) false 0 c).2 m bi hP1
          (fun j hj => hsub j (List.mem_cons_of_mem _ hj)) hm
          (fun j hj => lt_trans (hbi i (List.mem_cons_self _ _)) (hilt j hj)) hpw'
        with ⟨hP2, hmem2, hle2, hall2, hstrict2, hrepl2⟩
      refine ⟨hP2, ?_, hle2, ?_, ?_, hrepl2⟩
      · rcases hmem2 with he | hmem2
        · exact Or.inl he
        · exact Or.inr (List.mem_cons_of_mem _ hmem2)
      · intro j hj
        rcases List.mem_cons.mp hj with rfl | hjr
        · exact le_trans hvi hle2
        · exact hall2 j hjr
      · intro j hj hjlt
        rcases List.mem_cons.mp hj with rfl | hjr
        · have hbir : bi < (aiGo rest b (some m) bi
              (minimaxC 9 (b.set j Cell.O) false 0 c).2).1 :=
            lt_trans (hbi j (List.mem_cons_self _ _)) hjlt
          exact lt_of_le_of_lt hvi (hrepl2 hbir)
        · exact hstrict2 j hjr hjlt

set_option maxHeartbeats 4000000 in
/-- C6: `ai_move_hard` scans the empty cells in ascending order and
updates only on a strictly greater minimax score, so (with a
depth-aligned transposition table, e.g. a fresh one) it returns the
lowest empty index achieving the maximum minimax score; in particular it
returns 2 both on `["O","O"," ","X","X"," "," "," "," "]` (taking the
win) and on `["X","X"," "," ","O"," "," "," "," "]` (blocking). -/
theorem ai_move_hard_tiebreak :
    (∀ b : Board, ∀ c : Cache, b.length = 9 → alignedCache (pieces b + 1) c →
      board_full b = false →
      (ai_move_hard b c).1 ∈ empties b ∧
      (∀ j ∈ empties b, minimax 9 (b.set j Cell.O) false 0
          ≤ minimax 9 (b.set (ai_move_hard b c).1 Cell.O) false 0) ∧
      (∀ j ∈ empties b, j < (ai_move_hard b c).1 →
        minimax 9 (b.set j Cell.O) false 0
          < minimax 9 (b.set (ai_move_hard b c).1 Cell.O) false 0)) ∧
    (ai_move_hard [Cell.O, Cell.O, Cell.E, Cell.X, Cell.X, Cell.E, Cell.E, Cell.E,
      Cell.E] []).1 = 2 ∧
    (ai_move_hard [Cell.X, Cell.X, Cell.E, Cell.E, Cell.O, Cell.E, Cell.E, Cell.E,
      Cell.E] []).1 = 2 := by
  refine ⟨?_, by decide, by decide⟩
  intro b c hL hal hfull
  have hrec : ∀ i ∈ empties b, ∀ c' : Cache, alignedCache (pieces b + 1) c' →
      (minimaxC 9 (b.set i Cell.O) false 0 c').1 = minimax 9 (b.set i Cell.O) false 0 ∧
      alignedCache (pieces b + 1) (minimaxC 9 (b.set i Cell.O) false 0 c').2 := by
    intro i hi c' hc'
    have hLs : (b.set i Cell.O).length = 9 := by rw [List.length_set]; exact hL
    exact minimaxC_aligned 9 (b.set i Cell.O) false 0 c' (pieces b + 1) hLs
      (by have := countEmpty_le_length (b.set i Cell.O); omega) hc'
      (by rw [pieces_set cell_O_ne_E hi])
  have hne : empties b ≠ [] := empties_ne_nil_of_not_full hfull
  rcases List.exists_cons_of_ne_nil hne with ⟨i0, rest, he⟩
  have hi0 : i0 ∈ empties b := by rw [he]; exact List.mem_cons_self _ _
  rcases hrec i0 hi0 c hal with ⟨hv0, hP0⟩
  have hrun : ai_move_hard b c =
      aiGo rest b (some (minimaxC 9 (b.set i0 Cell.O) false 0 c).1) i0
        (minimaxC 9 (b.set i0 Cell.O) false 0 c).2 := by
    rw [ai_move_hard, he]
    rfl
  have hpw : (i0 :: rest).Pairwise (· < ·) := by
    rw [← he]
    exact empties_pairwise b
  rcases List.pairwise_cons.mp hpw with ⟨hilt, hpw'⟩
  rw [hv0] at hrun
  rcases aiGo_exact b (alignedCache (pieces b + 1))
      (fun i => minimax 9 (b.set i Cell.O) false 0) hrec rest
      (minimaxC 9 (b.set i0 Cell.O) false 0 c).2
      (minimax 9 (b.set i0 Cell.O) false 0) i0 hP0
      (fun j hj => by rw [he]; exact List.mem_cons_of_mem _ hj) rfl hilt hpw'
    with ⟨_, hmem2, hle2, hall2, hstrict2, hrepl2⟩
  rw [hrun]
  refine ⟨?_, ?_, ?_⟩
  · rcases hmem2 with heq | hmem2
    · rw [heq]; exact hi0
    · rw [he]; exact List.mem_cons_of_mem _ hmem2
  · intro j hj
    rw [he] at hj
    rcases List.mem_cons.mp hj with rfl | hjr
    · exact hle2
    · exact hall2 j hjr
  · intro j hj hjlt
    rw [he] at hj
    rcases List.mem_cons.mp hj with rfl | hjr
    · exact hrepl2 hjlt
    · exact hstrict2 j hjr hjlt

/-- Witness for C6 at a concrete input: on the winning-row board the
chosen index is one of the empty cells. -/
theorem ai_move_hard_tiebreak_witness :
    (ai_move_hard [Cell.O, Cell.O, Cell.E, Cell.X, Cell.X, Cell.E, Cell.E, Cell.E,
      Cell.E] []).1 ∈ empties [Cell.O, Cell.O, Cell.E, Cell.X, Cell.X, Cell.E,
      Cell.E, Cell.E, Cell.E] :=
  (ai_move_hard_tiebreak.1 [Cell.O, Cell.O, Cell.E, Cell.X, Cell.X, Cell.E, Cell.E,
    Cell.E, Cell.E] [] (by decide) (alignedCache_nil _) (by decide)).1

/-- C10: on a board with no empty cell, `ai_move_hard` returns index 0 —
the initial `best_idx`, an occupied cell — with no error signal, while
`best_player_hint` returns `none`; neither touches the cache. -/
theorem full_board_behavior :
    ∀ b : Board, ∀ c : Cache, board_full b = true →
      (ai_move_hard b c).1 = 0 ∧ (ai_move_hard b c).2 = c ∧
      (best_player_hint b c).1 = none ∧ (best_player_hint b c).2 = c := by
  intro b c h
  have he : empties b = [] :=
    List.length_eq_zero.mp (board_full_iff_countEmpty.mp h)
  rw [ai_move_hard, best_player_hint, he]
  exact ⟨rfl, rfl, rfl, rfl⟩

/-- Witness for C10 at a concrete input: a full drawn board. -/
theorem full_board_behavior_witness :
    (ai_move_hard [Cell.X, Cell.O, Cell.X, Cell.X, Cell.O, Cell.O, Cell.O, Cell.X,
      Cell.X] []).1 = 0 ∧
    (best_player_hint [Cell.X, Cell.O, Cell.X, Cell.X, Cell.O, Cell.O, Cell.O,
      Cell.X, Cell.X] []).1 = none := by
  have h := full_board_behavior
    [Cell.X, Cell.O, Cell.X, Cell.X, Cell.O, Cell.O, Cell.O, Cell.X, Cell.X] []
    (by decide)
  exact ⟨h.1, h.2.2.1⟩

/-- Mutation-threading variant of the `find_winning_move` loop: the board
is passed through each simulate/undo step exactly as the Python code
mutates it in place. -/
def fwGo (symbol : Cell) : List Nat → Board → Option Nat × Board
  | [], b => (none, b)
  | i :: rest, b =>
    if cellAt b i = Cell.E then
      if check_winner (b.set i symbol) = some symbol then
        (some i, (b.set i symbol).set i Cell.E)
      else fwGo symbol rest ((b.set i symbol).set i Cell.E)
    else fwGo symbol rest b

def find_winning_moveM (b : Board) (symbol : Cell) : Option Nat × Board :=
  fwGo symbol (List.range 9) b

/-- Mutation-threading variant of the `find_fork_move` scan loop. -/
def forkGo (symbol : Cell) : List Nat → Board → List (Nat × Nat) →
    List (Nat × Nat) × Board
  | [], b, best => (best, b)
  | i :: rest, b, best =>
    if cellAt b i = Cell.E then
      if 2 ≤ two_way_count (b.set i symbol) symbol then
        forkGo symbol rest ((b.set i symbol).set i Cell.E)
          (best ++ [(two_way_count (b.set i symbol) symbol, i)])
      else forkGo symbol rest ((b.set i symbol).set i Cell.E) best
    else forkGo symbol rest b best

def find_fork_moveM (b : Board) (symbol : Cell) : Option Nat × Board :=
  match forkGo symbol (List.range 9) b [] with
  | ([], b') => (none, b')
  | (h :: t, b') => (some (maxBySortKey t h).2, b')

/-- Mutation-threading variant of the `_minimax` move loop. -/
def scanMovesM (f : Board → Cache → Int × Board × Cache)
    (g : Option Int → Int → Option Int) (sym : Cell) :
    List Nat → Board → Option Int → Cache → Option Int × Board × Cache
  | [], b, best, c => (best, b, c)
  | i :: rest, b, best, c =>
    if cellAt b i = Cell.E then
      scanMovesM f g sym rest ((f (b.set i sym) c).2.1.set i Cell.E)
        (g best (f (b.set i sym) c).1) (f (b.set i sym) c).2.2
    else scanMovesM f g sym rest b best c

/-- Mutation-threading variant of `_minimax` itself. -/
def minimaxM : Nat → Board → Bool → Nat → Cache → Int × Board × Cache
  | fuel, b, is_ai_turn, depth, cache =>
    match check_winner b with
    | some Cell.O => (10 - (depth : Int), b, cache)
    | some Cell.X => ((depth : Int) - 10, b, cache)
    | _ =>
      if board_full b then (0, b, cache)
      else
        match cacheGet cache (serialize b, is_ai_turn) with
        | some v => (v, b, cache)
        | none =>
          match fuel with
          | 0 => (0, b, cache)
          | fuel + 1 =>
            let r :=
              if is_ai_turn then
                scanMovesM (fun b' c' => minimaxM fuel b' false (depth + 1) c')
                  omax Cell.O (List.range b.length) b none cache
              else
                scanMovesM (fun b' c' => minimaxM fuel b' true (depth + 1) c')
                  omin Cell.X (List.range b.length) b none cache
            (r.1.getD 0, r.2.1, ((serialize b, is_ai_turn), r.1.getD 0) ::
              (if MINIMAX_CACHE_LIMIT ≤ r.2.2.length then [] else r.2.2))

/-- Mutation-threading variant of the `ai_move_hard` selection loop. -/
def aiGoM : List Nat → Board → Option Int → Nat → Cache → Nat × Board × Cache
  | [], b, _, bi, c => (bi, b, c)
  | i :: rest, b, bs, bi, c =>
    if cellAt b i = Cell.E then
      match bs with
      | none => aiGoM rest ((minimaxM 9 (b.set i Cell.O) false 0 c).2.1.set i Cell.E)
          (some (minimaxM 9 (b.set i Cell.O) false 0 c).1) i
          (minimaxM 9 (b.set i Cell.O) false 0 c).2.2
      | some m =>
        if m < (minimaxM 9 (b.set i Cell.O) false 0 c).1 then
          aiGoM rest ((minimaxM 9 (b.set i Cell.O) false 0 c).2.1.set i Cell.E)
            (some (minimaxM 9 (b.set i Cell.O) false 0 c).1) i
            (minimaxM 9 (b.set i Cell.O) false 0 c).2.2
        else
          aiGoM rest ((minimaxM 9 (b.set i Cell.O) false 0 c).2.1.set i Cell.E)
            bs bi (minimaxM 9 (b.set i Cell.O) false 0 c).2.2
    else aiGoM rest b bs bi c

def ai_move_hardM (b : Board) (c : Cache) : Nat × Board × Cache :=
  aiGoM (List.range b.length) b none 0 c

/-- Mutation-threading variant of the `best_player_hint` loop. -/
def hintGoM : List Nat → Board → Option Int → Option Nat → Cache →
    Option Nat × Board × Cache
  | [], b, _, bi, c => (bi, b, c)
  | i :: rest, b, bs, bi, c =>
    if cellAt b i = Cell.E then
      match bs with
      | none => hintGoM rest ((minimaxM 9 (b.set i Cell.X) true 0 c).2.1.set i Cell.E)
          (some (minimaxM 9 (b.set i Cell.X) true 0 c).1) (some i)
          (minimaxM 9 (b.set i Cell.X) true 0 c).2.2
      | some m =>
        if (minimaxM 9 (b.set i Cell.X) true 0 c).1 < m then
          hintGoM rest ((minimaxM 9 (b.set i Cell.X) true 0 c).2.1.set i Cell.E)
            (some (minimaxM 9 (b.set i Cell.X) true 0 c).1) (some i)
            (minimaxM 9 (b.set i Cell.X) true 0 c).2.2
        else
          hintGoM rest ((minimaxM 9 (b.set i Cell.X) true 0 c).2.1.set i Cell.E)
            bs bi (minimaxM 9 (b.set i Cell.X) true 0 c).2.2
    else hintGoM rest b bs bi c

def best_player_hintM (b : Board) (c : Cache) : Option Nat × Board × Cache :=
  hintGoM (List.range b.length) b none none c

theorem fwGo_frame (symbol : Cell) :
    ∀ l : List Nat, ∀ b : Board, (fwGo symbol l b).2 = b := by
  intro l
  induction l with
  | nil => intro b; rfl
  | cons i rest ih =>
    intro b
    simp only [fwGo]
    by_cases he : cellAt b i = Cell.E
    · rw [if_pos he]
      by_cases hwin : check_winner (b.set i symbol) = some symbol
      · rw [if_pos hwin]
        exact set_set_restore he symbol
      · rw [if_neg hwin, ih ((b.set i symbol).set i Cell.E), set_set_restore he]
    · rw [if_neg he]
      exact ih b

theorem forkGo_frame (symbol : Cell) :
    ∀ l : List Nat, ∀ b : Board, ∀ best : List (Nat × Nat),
      (forkGo symbol l b best).2 = b := by
  intro l
  induction l with
  | nil => intro b best; rfl
  | cons i rest ih =>
    intro b best
    simp only [forkGo]
    by_cases he : cellAt b i = Cell.E
    · rw [if_pos he]
      by_cases h2 : 2 ≤ two_way_count (b.set i symbol) symbol
      · rw [if_pos h2, ih ((b.set i symbol).set i Cell.E), set_set_restore he]
      · rw [if_neg h2, ih ((b.set i symbol).set i Cell.E), set_set_restore he]
    · rw [if_neg he]
      exact ih b best

theorem scanMovesM_frame (f : Board → Cache → Int × Board × Cache)
    (g : Option Int → Int → Option Int) (sym : Cell)
    (hf : ∀ b' c', (f b' c').2.1 = b') :
    ∀ l : List Nat, ∀ b : Board, ∀ best : Option Int, ∀ c : Cache,
      (scanMovesM f g sym l b best c).2.1 = b := by
  intro l
  induction l with
  | nil => intro b best c; rfl
  | cons i rest ih =>
    intro b best c
    simp only [scanMovesM]
    by_cases he : cellAt b i = Cell.E
    · rw [if_pos he, ih, hf, set_set_restore he]
    · rw [if_neg he]
      exact ih b best c

theorem minimaxM_frame :
    ∀ fuel : Nat, ∀ b : Board, ∀ t : Bool, ∀ d : Nat, ∀ c : Cache,
      (minimaxM fuel b t d c).2.1 = b := by
  intro fuel
  induction fuel with
  | zero =>
    intro b t d c
    rw [minimaxM]
    split
    · rfl
    · rfl
    · split
      · rfl
      · split
        · rfl
        · rfl
  | succ fuel ih =>
    intro b t d c
    rw [minimaxM]
    split
    · rfl
    · rfl
    · split
      · rfl
      · split
        · rfl
        · cases t
          · exact scanMovesM_frame _ omin Cell.X
              (fun b' c' => ih b' true (d + 1) c') _ b none c
          · exact scanMovesM_frame _ omax Cell.O
              (fun b' c' => ih b' false (d + 1) c') _ b none c

theorem aiGoM_frame :
    ∀ l : List Nat, ∀ b : Board, ∀ bs : Option Int, ∀ bi : Nat, ∀ c : Cache,
      (aiGoM l b bs bi c).2.1 = b := by
  intro l
  induction l with
  | nil => intro b bs bi c; rfl
  | cons i rest ih =>
    intro b bs bi c
    by_cases he : cellAt b i = Cell.E
    · have hres : (minimaxM 9 (b.set i Cell.O) false 0 c).2.1.set i Cell.E = b := by
        rw [minimaxM_frame, set_set_restore he]
      cases bs with
      | none =>
        simp only [aiGoM]
        rw [if_pos he, ih, hres]
      | some m =>
        simp only [aiGoM]
        rw [if_pos he]
        split
        · rw [ih, hres]
        · rw [ih, hres]
    · cases bs with
      | none =>
        simp only [aiGoM]
        rw [if_neg he]
        exact ih b none bi c
      | some m =>
        simp only [aiGoM]
        rw [if_neg he]
        exact ih b (some m) bi c

theorem hintGoM_frame :
    ∀ l : List Nat, ∀ b : Board, ∀ bs : Option Int, ∀ bi : Option Nat, ∀ c : Cache,
      (hintGoM l b bs bi c).2.1 = b := by
  intro l
  induction l with
  | nil => intro b bs bi c; rfl
  | cons i rest ih =>
    intro b bs bi c
    by_cases he : cellAt b i = Cell.E
    · have hres : (minimaxM 9 (b.set i Cell.X) true 0 c).2.1.set i Cell.E = b := by
        rw [minimaxM_frame, set_set_restore he]
      cases bs with
      | none =>
        simp only [hintGoM]
        rw [if_pos he, ih, hres]
      | some m =>
        simp only [hintGoM]
        rw [if_pos he]
        split
        · rw [ih, hres]
        · rw [ih, hres]
    · cases bs with
      | none =>
        simp only [hintGoM]
        rw [if_neg he]
        exact ih b none bi c
      | some m =>
        simp only [hintGoM]
        rw [if_neg he]
        exact ih b (some m) bi c

/-- C9: the simulate-and-revert discipline never leaks.  Each of the five
searching functions, embedded with the board threaded through every
in-place mutation, returns the board exactly as it found it on every
path, including early returns and cache hits. -/
theorem simulate_revert_frame :
    (∀ b : Board, ∀ s : Cell, (find_winning_moveM b s).2 = b) ∧
    (∀ b : Board, ∀ s : Cell, (find_fork_moveM b s).2 = b) ∧
    (∀ fuel : Nat, ∀ b : Board, ∀ t : Bool, ∀ d : Nat, ∀ c : Cache,
      (minimaxM fuel b t d c).2.1 = b) ∧
    (∀ b : Board, ∀ c : Cache, (ai_move_hardM b c).2.1 = b) ∧
    (∀ b : Board, ∀ c : Cache, (best_player_hintM b c).2.1 = b) := by
  refine ⟨?_, ?_, minimaxM_frame, ?_, ?_⟩
  · intro b s
    exact fwGo_frame s (List.range 9) b
  · intro b s
    rw [find_fork_moveM]
    rcases hr : forkGo s (List.range 9) b [] with ⟨l, b'⟩
    have hb : b' = b := by
      have := forkGo_frame s (List.range 9) b []
      rw [hr] at this
      exact this
    cases l
    · simpa using hb
    · simpa using hb
  · intro b c
    exact aiGoM_frame (List.range b.length) b none 0 c
  · intro b c
    exact hintGoM_frame (List.range b.length) b none none c

end TTT

namespace SB

/-- Minimal JSON value model for the scoreboard files (`scoreboard.py`).
Numbers are integers: the scoreboard payloads the module reads and writes
only contain integers. -/
inductive Json where
  | null : Json
  | bool (b : Bool) : Json
  | num (n : Int) : Json
  | str (s : String) : Json
  | arr (l : List Json) : Json
  | obj (l : List (String × Json)) : Json

/-- Python `dict.get` on a JSON object. -/
def jget (l : List (String × Json)) (k : String) : Option Json :=
  (l.find? (fun e => e.1 == k)).map (fun e => e.2)

structure ScoreEntry where
  x : Int
  o : Int
  draw : Int
deriving DecidableEq, Repr

structure Scoreboard where
  easy : ScoreEntry
  normal : ScoreEntry
  hard : ScoreEntry
deriving DecidableEq, Repr

/-- The `DEFAULT_SCORE = {"X": 0, "O": 0, "Draw": 0}`. -/
def DEFAULT_SCORE : ScoreEntry := ScoreEntry.mk 0 0 0

/-- The `new_scoreboard()`: all three difficulties zeroed. -/
def new_scoreboard : Scoreboard :=
  Scoreboard.mk DEFAULT_SCORE DEFAULT_SCORE DEFAULT_SCORE

/-- Python `int(...)` coercion as applied to JSON values: ints pass,
booleans coerce, numeric strings parse, everything else raises
(`TypeError`/`ValueError`, caught by the caller). -/
def jsonToInt : Json → Option Int
  | Json.num n => some n
  | Json.bool b => some (if b then 1 else 0)
  | Json.str s => s.toInt?
  | _ => none

/-- The `_valid_score_data`: coerce each of X/O/Draw to int, falling back to
the default 0 on missing keys or failed coercion; non-dicts give the
default entry. -/
def _valid_score_data : Json → ScoreEntry
  | Json.obj kvs =>
    ScoreEntry.mk
      (match jget kvs "X" with
       | none => 0
       | some v => (jsonToInt v).getD 0)
      (match jget kvs "O" with
       | none => 0
       | some v => (jsonToInt v).getD 0)
      (match jget kvs "Draw" with
       | none => 0
       | some v => (jsonToInt v).getD 0)
  | _ => DEFAULT_SCORE

/-- The `_valid_scoreboard`: rebuild a full scoreboard from arbitrary JSON. -/
def _valid_scoreboard : Json → Scoreboard
  | Json.obj kvs =>
    Scoreboard.mk
      (_valid_score_data ((jget kvs "Easy").getD (Json.obj [])))
      (_valid_score_data ((jget kvs "Normal").getD (Json.obj [])))
      (_valid_score_data ((jget kvs "Hard").getD (Json.obj [])))
  | _ => new_scoreboard

def entryToJson (e : ScoreEntry) : Json :=
  Json.obj [("X", Json.num e.x), ("O", Json.num e.o), ("Draw", Json.num e.draw)]

/-- The canonical JSON form of a scoreboard, as the module always builds
it (difficulties in `DIFFICULTIES` order, keys in `DEFAULT_SCORE`
order). -/
def sbToJson (s : Scoreboard) : Json :=
  Json.obj [("Easy", entryToJson s.easy), ("Normal", entryToJson s.normal),
    ("Hard", entryToJson s.hard)]

/-- The `_compute_score_hash`.  Modelled from the source: the source computes
`sha256(json.dumps(scoreboard, sort_keys=True, separators=(",", ":")))`.
The SHA-256-of-canonical-dump composite is abstracted as an arbitrary
function `hf` of the canonical scoreboard JSON: the development is
parametric in `hf`, so every theorem below holds for every hash function,
in particular for the real one.  This is faithful because the module's
hash comparisons only need that the same scoreboard hashes to the same
string. -/
def _compute_score_hash (hf : Json → String) (s : Scoreboard) : String :=
  hf (sbToJson s)

/-- The `_extract_scored_payload`: rebuild the stored scoreboard, recompute
its hash and compare with the stored `hash` field. -/
def _extract_scored_payload (hf : Json → String) : Json → Option Scoreboard
  | Json.obj kvs =>
    match jget kvs "hash" with
    | some (Json.str h) =>
      if h = _compute_score_hash hf (_valid_scoreboard ((jget kvs "data").getD Json.null))
      then some (_valid_scoreboard ((jget kvs "data").getD Json.null))
      else none
    | _ => none
  | _ => none

/-- Outcome of trying to read and JSON-parse a file, at the granularity
the module's `try/except` clauses distinguish. -/
inductive ReadResult where
  | ok (j : Json)
  | notFound
  | parseError
  | osError

structure FS where
  primary : ReadResult
  backup : ReadResult

/-- The body of `load_scoreboard` after a successful read. -/
def load_data (hf : Json → String) : Json → Scoreboard
  | Json.obj kvs =>
    if (jget kvs "data").isNone then
      Scoreboard.mk DEFAULT_SCORE (_valid_score_data (Json.obj kvs)) DEFAULT_SCORE
    else
      match _extract_scored_payload hf (Json.obj kvs) with
      | some s => s
      | none =>
        match _extract_scored_payload hf ((jget kvs "previous").getD Json.null) with
        | some p => p
        | none => new_scoreboard
  | _ => new_scoreboard

/-- The `load_scoreboard`.  The primary read catches only `FileNotFoundError`
and `json.JSONDecodeError`; any other `OSError` (e.g. a permission
failure) propagates to the caller, modelled as `Except.error`.  The
backup read catches `OSError` and `JSONDecodeError`, so every backup
failure falls back to the default scoreboard. -/
def load_scoreboard (hf : Json → String) (safeMode : Bool)
    (primary backup : ReadResult) : Except Unit Scoreboard :=
  if safeMode then Except.ok new_scoreboard
  else
    match primary with
    | ReadResult.osError => Except.error ()
    | ReadResult.ok j => Except.ok (load_data hf j)
    | _ =>
      match backup with
      | ReadResult.ok j => Except.ok (load_data hf j)
      | _ => Except.ok new_scoreboard

/-- The `save_scoreboard` on the two-file state: re-read the primary for a
still-valid payload to keep as `previous`, copy the primary verbatim to
the backup, then write `{data, hash, previous}` (atomically; `writeOk`
models whether the final rename succeeds).  As in the source, an
`OSError` on the primary pre-read propagates. -/
def save_scoreboard (hf : Json → String) (safeMode writeOk : Bool)
    (score : Scoreboard) (fs : FS) : Except Unit FS :=
  if safeMode then Except.ok fs
  else
    match fs.primary with
    | ReadResult.osError => Except.error ()
    | p =>
      Except.ok (FS.mk
        (if writeOk then
          ReadResult.ok (Json.obj [("data", sbToJson score),
            ("hash", Json.str (_compute_score_hash hf score)),
            ("previous",
              (match p with
               | ReadResult.ok j =>
                 match _extract_scored_payload hf j with
                 | some v => Json.obj [("data", sbToJson v),
                     ("hash", Json.str (_compute_score_hash hf v))]
                 | none => Json.null
               | _ => Json.null))])
         else fs.primary)
        (match p with
         | ReadResult.notFound => fs.backup
         | x => x))

/-- Replace the top-level `hash` field of a payload. -/
def objSet : List (String × Json) → String → Json → List (String × Json)
  | [], _, _ => []
  | (k, v) :: rest, key, nv =>
    if k == key then (k, nv) :: rest else (k, v) :: objSet rest key nv

def corruptHash (j : Json) (c : String) : Json :=
  match j with
  | Json.obj kvs => Json.obj (objSet kvs "hash" (Json.str c))
  | x => x

/-- Corrupt both the top-level `hash` and the nested `previous.hash`. -/
def corruptBoth (j : Json) (c c' : String) : Json :=
  match j with
  | Json.obj kvs =>
    Json.obj (objSet (objSet kvs "hash" (Json.str c)) "previous"
      (corruptHash ((jget kvs "previous").getD Json.null) c'))
  | x => x

/-- A scoreboard with exactly the three difficulties and non-negative
integer counts. -/
def ValidScoreboard (s : Scoreboard) : Prop :=
  0 ≤ s.easy.x ∧ 0 ≤ s.easy.o ∧ 0 ≤ s.easy.draw ∧
  0 ≤ s.normal.x ∧ 0 ≤ s.normal.o ∧ 0 ≤ s.normal.draw ∧
  0 ≤ s.hard.x ∧ 0 ≤ s.hard.o ∧ 0 ≤ s.hard.draw

theorem valid_rebuild (S : Scoreboard) : _valid_scoreboard (sbToJson S) = S := rfl

theorem extract_saved (hf : Json → String) (S : Scoreboard) (prev : Json) :
    _extract_scored_payload hf (Json.obj [("data", sbToJson S),
      ("hash", Json.str (_compute_score_hash hf S)), ("previous", prev)])
      = some S := by
  simp [_extract_scored_payload, jget, List.find?, valid_rebuild]

theorem extract_noprev (hf : Json → String) (S : Scoreboard) :
    _extract_scored_payload hf (Json.obj [("data", sbToJson S),
      ("hash", Json.str (_compute_score_hash hf S))]) = some S := by
  simp [_extract_scored_payload, jget, List.find?, valid_rebuild]

/-- Every successful save leaves the primary file holding
`{data, hash, previous}` for the saved scoreboard. -/
theorem save_shape (hf : Json → String) (S : Scoreboard) (fs fs' : FS)
    (hsave : save_scoreboard hf false true S fs = Except.ok fs') :
    ∃ prev : Json, fs'.primary = ReadResult.ok (Json.obj
      [("data", sbToJson S), ("hash", Json.str (_compute_score_hash hf S)),
       ("previous", prev)]) := by
  rcases hp : fs.primary with j | _ | _ | _ <;> rw [save_scoreboard, hp] at hsave
  · simp only [Bool.false_eq_true, if_false, if_true, Except.ok.injEq] at hsave
    refine ⟨(match _extract_scored_payload hf j with
             | some v => Json.obj [("data", sbToJson v),
                 ("hash", Json.str (_compute_score_hash hf v))]
             | none => Json.null), ?_⟩
    rw [← hsave]
  · simp only [Bool.false_eq_true, if_false, if_true, Except.ok.injEq] at hsave
    refine ⟨Json.null, ?_⟩
    rw [← hsave]
  · simp only [Bool.false_eq_true, if_false, if_true, Except.ok.injEq] at hsave
    refine ⟨Json.null, ?_⟩
    rw [← hsave]
  · simp only [Bool.false_eq_true, if_false] at hsave
    cases hsave

/-- C3: round trip.  With safe mode disabled and the write succeeding,
saving a valid scoreboard and loading it back returns an equal
scoreboard, and the stored hash validates. -/
theorem scoreboard_roundtrip :
    ∀ hf : Json → String, ∀ S : Scoreboard, ∀ fs fs' : FS,
      ValidScoreboard S →
      save_scoreboard hf false true S fs = Except.ok fs' →
      load_scoreboard hf false fs'.primary fs'.backup = Except.ok S ∧
      ∃ j : Json, fs'.primary = ReadResult.ok j ∧
        _extract_scored_payload hf j = some S := by
  intro hf S fs fs' _ hsave
  rcases save_shape hf S fs fs' hsave with ⟨prev, hprim⟩
  constructor
  · rw [hprim, load_scoreboard]
    simp only [Bool.false_eq_true, if_false]
    rw [load_data]
    have hdata : (jget [("data", sbToJson S),
        ("hash", Json.str (_compute_score_hash hf S)), ("previous", prev)]
          "data").isNone = false := by
      simp [jget, List.find?]
    rw [if_neg (by rw [hdata]; simp)]
    rw [extract_saved]
  · exact ⟨_, hprim, extract_saved hf S prev⟩

/-- Witness for C3 at a concrete input: the scoreboard `Easy = {X:3,O:1,
Draw:0}` (others zero), saved to an empty file system with the trivial
hash function, loads back unchanged. -/
theorem scoreboard_roundtrip_witness :
    load_scoreboard (fun _ => "h") false
      ((save_scoreboard (fun _ => "h") false true
        (Scoreboard.mk (ScoreEntry.mk 3 1 0) DEFAULT_SCORE DEFAULT_SCORE)
        (FS.mk ReadResult.notFound ReadResult.notFound)).toOption.getD
          (FS.mk ReadResult.notFound ReadResult.notFound)).primary
      ((save_scoreboard (fun _ => "h") false true
        (Scoreboard.mk (ScoreEntry.mk 3 1 0) DEFAULT_SCORE DEFAULT_SCORE)
        (FS.mk ReadResult.notFound ReadResult.notFound)).toOption.getD
          (FS.mk ReadResult.notFound ReadResult.notFound)).backup
      = Except.ok (Scoreboard.mk (ScoreEntry.mk 3 1 0) DEFAULT_SCORE DEFAULT_SCORE) :=
  (scoreboard_roundtrip (fun _ => "h")
    (Scoreboard.mk (ScoreEntry.mk 3 1 0) DEFAULT_SCORE DEFAULT_SCORE)
    (FS.mk ReadResult.notFound ReadResult.notFound) _
    (by refine ⟨?_, ?_, ?_, ?_, ?_, ?_, ?_, ?_, ?_⟩ <;> decide) rfl).1

/-- The second of two successive saves stores the first save's scoreboard
(with its hash) as the `previous` payload. -/
theorem save_after_save (hf : Json → String) (S1 S2 : Scoreboard) (fs1 fs2 : FS)
    (prev1 : Json)
    (h1 : fs1.primary = ReadResult.ok (Json.obj [("data", sbToJson S1),
      ("hash", Json.str (_compute_score_hash hf S1)), ("previous", prev1)]))
    (hsave : save_scoreboard hf false true S2 fs1 = Except.ok fs2) :
    fs2.primary = ReadResult.ok (Json.obj [("data", sbToJson S2),
      ("hash", Json.str (_compute_score_hash hf S2)),
      ("previous", Json.obj [("data", sbToJson S1),
        ("hash", Json.str (_compute_score_hash hf S1))])]) := by
  rw [save_scoreboard, h1] at hsave
  simp only [Bool.false_eq_true, if_false, if_true, Except.ok.injEq] at hsave
  rw [extract_saved] at hsave
  rw [← hsave]

theorem jget_top (S2 S1 : Scoreboard) (hf : Json → String) (c : String) :
    corruptHash (Json.obj [("data", sbToJson S2),
      ("hash", Json.str (_compute_score_hash hf S2)),
      ("previous", Json.obj [("data", sbToJson S1),
        ("hash", Json.str (_compute_score_hash hf S1))])]) c
    = Json.obj [("data", sbToJson S2), ("hash", Json.str c),
      ("previous", Json.obj [("data", sbToJson S1),
        ("hash", Json.str (_compute_score_hash hf S1))])] := by
  simp [corruptHash, objSet]

theorem corruptBoth_eval (S2 S1 : Scoreboard) (hf : Json → String) (c c' : String) :
    corruptBoth (Json.obj [("data", sbToJson S2),
      ("hash", Json.str (_compute_score_hash hf S2)),
      ("previous", Json.obj [("data", sbToJson S1),
        ("hash", Json.str (_compute_score_hash hf S1))])]) c c'
    = Json.obj [("data", sbToJson S2), ("hash", Json.str c),
      ("previous", Json.obj [("data", sbToJson S1), ("hash", Json.str c')])] := by
  simp [corruptBoth, objSet, jget, List.find?, corruptHash]

theorem extract_badhash (hf : Json → String) (S : Scoreboard) (c : String)
    (hc : c ≠ _compute_score_hash hf S) (rest : List (String × Json)) :
    _extract_scored_payload hf (Json.obj (("data", sbToJson S) ::
      ("hash", Json.str c) :: rest)) = none := by
  rw [_extract_scored_payload]
  have hh : jget (("data", sbToJson S) :: ("hash", Json.str c) :: rest) "hash"
      = some (Json.str c) := by
    simp [jget, List.find?]
  have hd : jget (("data", sbToJson S) :: ("hash", Json.str c) :: rest) "data"
      = some (sbToJson S) := by
    simp [jget, List.find?]
  rw [hh, hd]
  simp only [Option.getD_some, valid_rebuild]
  rw [if_neg hc]

/-- C4: the one-generation rollback ladder.  After two successive valid
saves, corrupting only the top-level hash makes the loader return the
prior save's scoreboard; corrupting both the top-level and the nested
`previous.hash` makes it return the all-zero scoreboard. -/
theorem scoreboard_rollback :
    ∀ hf : Json → String, ∀ S1 S2 : Scoreboard, ∀ fs0 fs1 fs2 : FS, ∀ p2 : Json,
      ∀ c c' : String,
      save_scoreboard hf false true S1 fs0 = Except.ok fs1 →
      save_scoreboard hf false true S2 fs1 = Except.ok fs2 →
      fs2.primary = ReadResult.ok p2 →
      c ≠ _compute_score_hash hf S2 → c' ≠ _compute_score_hash hf S1 →
      load_scoreboard hf false (ReadResult.ok (corruptHash p2 c)) fs2.backup
        = Except.ok S1 ∧
      load_scoreboard hf false (ReadResult.ok (corruptBoth p2 c c')) fs2.backup
        = Except.ok new_scoreboard := by
  intro hf S1 S2 fs0 fs1 fs2 p2 c c' hsave1 hsave2 hp2 hc hc'
  rcases save_shape hf S1 fs0 fs1 hsave1 with ⟨prev1, hprim1⟩
  have hprim2 := save_after_save hf S1 S2 fs1 fs2 prev1 hprim1 hsave2
  rw [hp2] at hprim2
  have hp2v := ReadResult.ok.inj hprim2
  rw [hp2v]
  constructor
  · rw [jget_top, load_scoreboard]
    simp only [Bool.false_eq_true, if_false]
    rw [load_data]
    rw [if_neg (by simp [jget, List.find?])]
    rw [extract_badhash hf S2 c hc]
    have hprev : jget [("data", sbToJson S2), ("hash", Json.str c),
        ("previous", Json.obj [("data", sbToJson S1),
          ("hash", Json.str (_compute_score_hash hf S1))])] "previous"
        = some (Json.obj [("data", sbToJson S1),
          ("hash", Json.str (_compute_score_hash hf S1))]) := by
      simp [jget, List.find?]
    rw [hprev]
    simp only [Option.getD_some]
    rw [extract_noprev]
  · rw [corruptBoth_eval, load_scoreboard]
    simp only [Bool.false_eq_true, if_false]
    rw [load_data]
    rw [if_neg (by simp [jget, List.find?])]
    rw [extract_badhash hf S2 c hc]
    have hprev : jget [("data", sbToJson S2), ("hash", Json.str c),
        ("previous", Json.obj [("data", sbToJson S1), ("hash", Json.str c')])]
          "previous"
        = some (Json.obj [("data", sbToJson S1), ("hash", Json.str c')]) := by
      simp [jget, List.find?]
    rw [hprev]
    simp only [Option.getD_some]
    rw [extract_badhash hf S1 c' hc']

def wS1 : Scoreboard := Scoreboard.mk DEFAULT_SCORE (ScoreEntry.mk 0 2 0) DEFAULT_SCORE

def wS2 : Scoreboard :=
  Scoreboard.mk (ScoreEntry.mk 1 0 0) (ScoreEntry.mk 0 2 0) DEFAULT_SCORE

def wFS0 : FS := FS.mk ReadResult.notFound ReadResult.notFound

def wFS1 : FS := FS.mk
  (ReadResult.ok (Json.obj [("data", sbToJson wS1), ("hash", Json.str "h"),
    ("previous", Json.null)]))
  ReadResult.notFound

def wP2 : Json := Json.obj [("data", sbToJson wS2), ("hash", Json.str "h"),
  ("previous", Json.obj [("data", sbToJson wS1), ("hash", Json.str "h")])]

def wFS2 : FS := FS.mk (ReadResult.ok wP2)
  (ReadResult.ok (Json.obj [("data", sbToJson wS1), ("hash", Json.str "h"),
    ("previous", Json.null)]))

/-- Witness for C4 at a concrete input: two saves with the constant hash
function, then corruption of the top hash (and then also the nested
one). -/
theorem scoreboard_rollback_witness :
    load_scoreboard (fun _ => "h") false (ReadResult.ok (corruptHash wP2 "x"))
      wFS2.backup = Except.ok wS1 ∧
    load_scoreboard (fun _ => "h") false (ReadResult.ok (corruptBoth wP2 "x" "y"))
      wFS2.backup = Except.ok new_scoreboard :=
  scoreboard_rollback (fun _ => "h") wS1 wS2 wFS0 wFS1 wFS2 wP2 "x" "y"
    rfl rfl rfl (by decide) (by decide)

/-- C5 (code bug): the loader is not total.  The primary read catches
only `FileNotFoundError` and `json.JSONDecodeError`; a primary file that
exists but cannot be read (e.g. `PermissionError`, an `OSError`)
propagates to the caller — even when the backup file holds a perfectly
valid payload — contradicting the documented "never raises, falls back to
the backup" behavior.  (The backup read does catch `OSError`, which makes
the narrow primary catch a slip.) -/
theorem loader_raises_on_unreadable_primary :
    load_scoreboard (fun _ => "h") false ReadResult.osError
      (ReadResult.ok (Json.obj [("data", sbToJson new_scoreboard),
        ("hash", Json.str "h"), ("previous", Json.null)]))
      = Except.error () := rfl

end SB
